import Mathlib

/-!
Local file storage service: storage core

A shallow embedding of `cpp/src/storage.cpp` (class `Storage`) and of the
batch-delete loop of `cpp/src/main.cpp`.

* A `std::string` is a list of characters (`Str`); every search, comparison
  and slice of the source works on such lists one character at a time.
* The file system is explicit state (`FS`): a table from absolute,
  normalised paths to nodes, listed in directory order, together with the
  working directory of the process.  Path strings are resolved component by
  component, so `..`, `.` and empty components behave as in POSIX.
  A path reaches the system as `c_str()`, so it ends at its first NUL
  character.  Symbolic links and permissions are not part of the model.
* The wall clock and the outcome of writing to a stream are inputs
  (`WriteEnv`, `nowMs`, `nowSec`).
-/

namespace Storage

/-! ## Strings -/

/-- A `std::string`: a sequence of characters. -/
abbrev Str := List Char

/-- The character `"` (code 34). -/
def dquote : Char := Char.ofNat 34

/-- The character `\n` (code 10). -/
def newline : Char := Char.ofNat 10

/-- The character `/` (code 47). -/
def slash : Char := Char.ofNat 47

/-- The character `.` (code 46). -/
def dot : Char := Char.ofNat 46

/-- The NUL character (code 0), which ends a C string. -/
def nul : Char := Char.ofNat 0

/-- The C string `s.c_str()` as the system reads it: the characters before the first NUL. -/
def c_str (s : Str) : Str := s.takeWhile (fun c => !(c = nul))

/-- Whether `pat` occurs in `s` at offset 0. -/
def startsWith : Str → Str → Bool
  | [], _ => true
  | _ :: _, [] => false
  | p :: ps, c :: cs => if p = c then startsWith ps cs else false

/-- Offset of the first occurrence of `pat` in `s`, `none` for `npos`
(`std::string::find(pat)`). -/
def find (pat : Str) : Str → Option Nat
  | [] => if startsWith pat [] then some 0 else none
  | c :: cs =>
    if startsWith pat (c :: cs) then some 0
    else (find pat cs).map (fun i => i + 1)

/-- Offset of the first occurrence of `pat` in `s` at or after `pos`
(`std::string::find(pat, pos)`); `npos` when `pos` is past the end. -/
def findFrom (pat : Str) (s : Str) (pos : Nat) : Option Nat :=
  if s.length < pos then none
  else (find pat (s.drop pos)).map (fun i => i + pos)

/-- Slice `s.substr(pos, n)`. -/
def substr (s : Str) (pos n : Nat) : Str := (s.drop pos).take n

/-- Comparison `a < b` of `std::string`: lexicographic, character by
character, a proper prefix being smaller. -/
def strLt : Str → Str → Bool
  | [], [] => false
  | [], _ :: _ => true
  | _ :: _, [] => false
  | a :: as, b :: bs =>
    if a.toNat < b.toNat then true
    else if b.toNat < a.toNat then false
    else strLt as bs

/-- Decimal text of a natural number (`std::to_string` on `size_t`,
`operator<<` on `size_t`). -/
def natToString (n : Nat) : Str := Nat.toDigits 10 n

/-- Decimal text of a signed integer (`std::to_string` on `time_t` and on the
millisecond count, `operator<<` on `time_t`). -/
def to_string : Int → Str
  | Int.ofNat n => natToString n
  | Int.negSucc n => Char.ofNat 45 :: natToString (n + 1)

/-- Value of a decimal digit string, read left to right. -/
def readNat (s : Str) : Nat := s.foldl (fun acc c => 10 * acc + (c.toNat - 48)) 0

/-- The number whose decimal form is the given text (inverse of
`to_string`). -/
def readInt : Str → Int
  | [] => 0
  | c :: cs => if c = Char.ofNat 45 then - (readNat cs : Int) else (readNat (c :: cs) : Int)

/-! ## File system -/

/-- An absolute, normalised path: the names from the root downwards. -/
abbrev Path := List Str

/-- What a path can name: a regular file with its bytes and its modification
time in seconds, a directory, or a special file (for instance a socket)
that `stat` sees but that cannot be opened as a stream. -/
inductive Node where
  | regular (content : Str) (mtime : Int)
  | directory
  | special
  deriving DecidableEq, Repr

/-- The file system: every existing node with its path, in the order in
which `readdir` reports the entries of a directory, and the working
directory against which the relative paths of the service are resolved.
The root (path `[]`) is always a directory and has no entry. -/
structure FS where
  entries : List (Path × Node)
  cwd : Path
  deriving DecidableEq, Repr

/-- First node recorded for a path. -/
def lookupEntry (p : Path) : List (Path × Node) → Option Node
  | [] => none
  | e :: es => if e.1 = p then some e.2 else lookupEntry p es

/-- The node at an absolute path. -/
def FS.lookup (fs : FS) (p : Path) : Option Node :=
  if p = [] then some Node.directory else lookupEntry p fs.entries

/-- Components of a path string, cut at every `/`. -/
def splitPath : Str → List Str
  | [] => [[]]
  | c :: cs =>
    if c = slash then [] :: splitPath cs
    else match splitPath cs with
      | [] => [[c]]
      | h :: t => (c :: h) :: t

/-- Whether a component is a real name, neither empty nor `.` nor `..`. -/
def properName (c : Str) : Bool :=
  !(c = [] || c = [dot] || c = [dot, dot])

/-- Walk the components from directory `cur`.  Every component is looked up
in a node that must be a directory; an empty component and `.` stay, `..`
goes to the parent, a name goes down.  The node reached need not exist. -/
def walk (fs : FS) : Path → List Str → Option Path
  | cur, [] => some cur
  | cur, c :: cs =>
    if fs.lookup cur = some Node.directory then
      if c = [] ∨ c = [dot] then walk fs cur cs
      else if c = [dot, dot] then walk fs cur.dropLast cs
      else walk fs (cur ++ [c]) cs
    else none

/-- Resolve a relative path string from the working directory.  The path is handed to the
system as `path.c_str()` (also by the stream constructors), so only the text before its
first NUL is resolved. -/
def resolve (fs : FS) (path : Str) : Option Path :=
  walk fs fs.cwd (splitPath (c_str path))

/-- The system call `stat(path)`: the node named by the path, `none` when the call
fails. -/
def stat (fs : FS) (path : Str) : Option Node :=
  match resolve fs path with
  | some q => fs.lookup q
  | none => none

/-- Remove every entry recorded for path `q`. -/
def FS.erase (fs : FS) (q : Path) : FS :=
  { fs with entries := fs.entries.filter (fun e => !(e.1 = q)) }

/-- Set the node at path `q`: in place when the path has an entry, as a new
last entry otherwise. -/
def FS.put (fs : FS) (q : Path) (n : Node) : FS :=
  if (fs.entries.any (fun e => e.1 = q)) then
    { fs with entries := fs.entries.map (fun e => if e.1 = q then (q, n) else e) }
  else
    { fs with entries := fs.entries ++ [(q, n)] }

/-- Whether some entry lies directly inside directory `d`. -/
def FS.hasChildren (fs : FS) (d : Path) : Bool :=
  fs.entries.any (fun e => !(e.1 = []) && e.1.dropLast = d)

/-- The names directly inside directory `d`, in directory order. -/
def FS.childNames (fs : FS) (d : Path) : List Str :=
  fs.entries.filterMap (fun e =>
    match e.1.getLast? with
    | some name => if e.1.dropLast = d then some name else none
    | none => none)

/-- The calls `opendir` and `readdir` run to the end: `none` when the path is
not a directory that can be opened, otherwise `.`, `..` and the names inside. -/
def readdir (fs : FS) (path : Str) : Option (List Str) :=
  match resolve fs path with
  | some d =>
    if fs.lookup d = some Node.directory then
      some ([dot] :: [dot, dot] :: fs.childNames d)
    else none
  | none => none

/-- The C library call `remove(path)`: unlinks a file, and removes a directory
when it is empty (as `rmdir` does; a path ending in `.` or `..` and the root
are refused).  Returns whether the call succeeded. -/
def removePath (fs : FS) (path : Str) : Bool × FS :=
  match resolve fs path with
  | none => (false, fs)
  | some q =>
    match fs.lookup q with
    | none => (false, fs)
    | some Node.directory =>
      if q = [] ∨ (splitPath (c_str path)).getLast? = some [dot]
          ∨ (splitPath (c_str path)).getLast? = some [dot, dot] ∨ fs.hasChildren q = true then
        (false, fs)
      else (true, fs.erase q)
    | some _ => (true, fs.erase q)

/-- What the environment does with an output stream: whether the file can be
opened at all (permissions, descriptor limits), how many bytes the device
accepts before the stream fails, and the modification time the file system
records. -/
structure WriteEnv where
  canOpen : Bool
  capacity : Nat
  stamp : Int
  deriving DecidableEq, Repr

/-- An output stream `std::ofstream ofs(path)` to which `data` is written and
which is then closed.  `none`: the stream did not open (the path does not
lead to a creatable or regular file, or the environment refuses).  Otherwise
the file is truncated and holds the bytes accepted, and the flag tells whether
the stream is still good, that is whether all of `data` was accepted. -/
def writeStream (fs : FS) (env : WriteEnv) (path data : Str) : Option (Bool × FS) :=
  if env.canOpen = false then none
  else
    match resolve fs path with
    | none => none
    | some q =>
      match (splitPath (c_str path)).getLast? with
      | none => none
      | some c =>
        if properName c = false then none
        else
          match fs.lookup q with
          | some Node.directory => none
          | some Node.special => none
          | _ =>
            some (decide (data.length ≤ env.capacity),
                  fs.put q (Node.regular (data.take env.capacity) env.stamp))

/-- An input stream `std::ifstream mfs(path)` read with `std::getline` until it fails: the
bytes of a regular file; a directory opens but yields nothing; anything else does not open
(`none`). -/
def readStream (fs : FS) (path : Str) : Option Str :=
  match stat fs path with
  | some (Node.regular c _) => some c
  | some Node.directory => some []
  | _ => none

/-! ## Storage -/

/-- Record `FileInfo` of `storage.hpp`. -/
structure FileInfo where
  key : Str
  size : Nat
  lastModified : Str
  contentType : Str
  originalName : Str
  deriving DecidableEq, Repr

/-- Member `storageDir_`. -/
def storageDir_ : Str := "storage".toList

/-- Member `filesDir_`. -/
def filesDir_ : Str := storageDir_ ++ "/files".toList

/-- Member `metadataDir_`. -/
def metadataDir_ : Str := storageDir_ ++ "/metadata".toList

/-- The function `Storage::getFilePath`. -/
def getFilePath (key : Str) : Str := filesDir_ ++ "/".toList ++ key

/-- The function `Storage::getMetadataPath`. -/
def getMetadataPath (key : Str) : Str :=
  metadataDir_ ++ "/".toList ++ key ++ ".json".toList

/-- The search text for the original name, 16 characters. -/
def originalNameTag : Str := "\"originalName\":\"".toList

/-- The search text for the content type, 15 characters. -/
def contentTypeTag : Str := "\"contentType\":\"".toList

/-- The default content type. -/
def octetStream : Str := "application/octet-stream".toList

/-- The loop `while (std::getline(mfs, line)) content += line;`: the text
without its line feeds. -/
def joinLines (text : Str) : Str := text.filter (fun c => !(c = newline))

/-- The sidecar block shared word for word by `listFiles` (lines 88-104) and
`getFileInfo` (lines 129-145): when the sidecar opens, the original name is
the text from 16 past the first name tag up to the next quote, and the
content type the text from 14 past the first type tag up to the next
quote. -/
def applyMetadata (fs : FS) (key : Str) (info : FileInfo) : FileInfo :=
  match readStream fs (getMetadataPath key) with
  | none => info
  | some text =>
    let content := joinLines text
    let info1 :=
      match find originalNameTag content with
      | none => info
      | some pos =>
        match findFrom [dquote] content (pos + 16) with
        | none => info
        | some e => { info with originalName := substr content (pos + 16) (e - (pos + 16)) }
    match find contentTypeTag content with
    | none => info1
    | some pos =>
      match findFrom [dquote] content (pos + 14) with
      | none => info1
      | some e => { info1 with contentType := substr content (pos + 14) (e - (pos + 14)) }

/-- The function `Storage::saveFile`.  Returns the key (empty on failure) and the
new file system; `nowMs` is the clock in milliseconds since the epoch. -/
def saveFile (fs : FS) (env : WriteEnv) (nowMs : Int)
    (filename content _contentType : Str) (_size : Nat) : Str × FS :=
  let key := to_string nowMs ++ "-".toList ++ filename
  let filePath := filesDir_ ++ "/".toList ++ key
  match writeStream fs env filePath content with
  | none => ([], fs)
  | some (good, fs1) => (if good then key else [], fs1)

/-- The text written by `saveMetadata`. -/
def metadataText (originalName contentType : Str) (size : Nat) (nowSec : Int) : Str :=
  "\x7b\"originalName\":\"".toList ++ originalName ++ "\",\"contentType\":\"".toList
    ++ contentType ++ "\",\"size\":".toList ++ natToString size
    ++ ",\"uploadedAt\":\"".toList ++ to_string nowSec ++ "\"\x7d".toList

/-- The function `Storage::saveMetadata`.  The result is `false` only when the
stream does not open; the state of the stream after writing is not looked
at.  `nowSec` is the clock in seconds since the epoch. -/
def saveMetadata (fs : FS) (env : WriteEnv) (nowSec : Int)
    (key originalName contentType : Str) (size : Nat) : Bool × FS :=
  match writeStream fs env (getMetadataPath key)
      (metadataText originalName contentType size nowSec) with
  | none => (false, fs)
  | some (_, fs1) => (true, fs1)

/-- One turn of the `readdir` loop of `listFiles`: the entry for a name, or
`none` when the name is skipped. -/
def listEntry (fs : FS) (name : Str) : Option FileInfo :=
  if name.head? = some dot then none
  else
    match stat fs (filesDir_ ++ "/".toList ++ name) with
    | some (Node.regular c m) =>
      let info := applyMetadata fs name
        { key := name, size := c.length, lastModified := to_string m,
          contentType := [], originalName := name }
      some (if info.contentType = [] then { info with contentType := octetStream } else info)
    | _ => none

/-- Insert `x` in front of the first element that `comp` does not put before
it. -/
def insertBy {α : Type} (comp : α → α → Bool) (x : α) : List α → List α
  | [] => [x]
  | y :: ys => if comp y x then y :: insertBy comp x ys else x :: y :: ys

/-- The call `std::sort(first, last, comp)`: a rearrangement of the elements in
which no element is put by `comp` before an earlier one.  The standard leaves the
order of equivalent elements open; this model keeps their input order. -/
def stdSort {α : Type} (comp : α → α → Bool) : List α → List α
  | [] => []
  | x :: xs => insertBy comp x (stdSort comp xs)

/-- The comparator of `listFiles`: `a.lastModified > b.lastModified` on
strings. -/
def newerFirst (a b : FileInfo) : Bool := strLt b.lastModified a.lastModified

/-- The function `Storage::listFiles`. -/
def listFiles (fs : FS) : List FileInfo :=
  match readdir fs filesDir_ with
  | none => []
  | some names => stdSort newerFirst (names.filterMap (listEntry fs))

/-- The function `Storage::getFileInfo`: `none` for `false`, otherwise the record
as filled in. -/
def getFileInfo (fs : FS) (key : Str) : Option FileInfo :=
  match stat fs (filesDir_ ++ "/".toList ++ key) with
  | some (Node.regular c m) =>
    some (applyMetadata fs key
      { key := key, size := c.length, lastModified := to_string m,
        contentType := octetStream, originalName := key })
  | _ => none

/-- The function `Storage::readFile`: the content when the call returns `true`, `none` otherwise.
A directory opens as a stream, but reading it through `std::istreambuf_iterator` throws, so
the call does not return `true` there either. -/
def readFile (fs : FS) (key : Str) : Option Str :=
  match stat fs (getFilePath key) with
  | some (Node.regular c _) => some c
  | _ => none

/-- The function `Storage::deleteFile`: the result of removing the file, and the
file system after both removals. -/
def deleteFile (fs : FS) (key : Str) : Bool × FS :=
  let filePath := getFilePath key
  let metaPath := getMetadataPath key
  let r1 := removePath fs filePath
  let r2 := removePath r1.2 metaPath
  (r1.1, r2.2)

/-- The loop of the batch-delete handler in `main.cpp` (lines 228-231) over
the keys of the request body: the number of successful `deleteFile` calls
and the file system afterwards. -/
def batchDelete (fs : FS) : List Str → Nat × FS
  | [] => (0, fs)
  | k :: ks =>
    let r := deleteFile fs k
    let rest := batchDelete r.2 ks
    (if r.1 then rest.1 + 1 else rest.1, rest.2)

/-- Absolute path of the files directory, `storage/files` below the working directory. -/
def filesPath (fs : FS) : Path := fs.cwd ++ ["storage".toList, "files".toList]

/-- Absolute path of the metadata directory, `storage/metadata` below the working
directory. -/
def metadataPath (fs : FS) : Path := fs.cwd ++ ["storage".toList, "metadata".toList]

/-- Whether path `p` is directory `d` or lies below it. -/
def pathUnder (d p : Path) : Bool := decide (p.take d.length = d)

/-- The contents of the files directory: every entry at or below it. -/
def filesDirContents (fs : FS) : List (Path × Node) :=
  fs.entries.filter (fun e => pathUnder (filesPath fs) e.1)

/-- Where the file path of a key without `/` leads: the files directory itself for an empty
key and for `.`, its parent for `..`, the entry of that name otherwise. -/
def plainTarget (fs : FS) (key : Str) : Path :=
  if key = [] ∨ key = [dot] then filesPath fs
  else if key = [dot, dot] then (filesPath fs).dropLast
  else filesPath fs ++ [key]

/-- Whether the path names nothing that could be taken away: nothing exists at it, or what
exists is a directory with entries in it. -/
def namesNothing (fs : FS) (path : Str) : Bool :=
  match resolve fs path with
  | none => true
  | some q =>
    match fs.lookup q with
    | none => true
    | some Node.directory => fs.hasChildren q
    | some _ => false

/-- Whether the key names an existing stored file: its file path names a regular file. -/
def storedFile (fs : FS) (key : Str) : Bool :=
  match stat fs (getFilePath key) with
  | some (Node.regular _ _) => true
  | _ => false

/-- The text a sidecar starts with. -/
def sidecarHead : Str := "\x7b\"originalName\":\"".toList

/-- The sidecar text that follows the closing quote of the original name. -/
def sidecarTail (contentType : Str) (size : Nat) (nowSec : Int) : Str :=
  ",\"contentType\":\"".toList ++ contentType ++ "\",\"size\":".toList ++ natToString size
    ++ ",\"uploadedAt\":\"".toList ++ to_string nowSec ++ "\"\x7d".toList

/-- Whether a text can be the name of a directory entry: a real name without `/` and without
NUL. -/
def validName (name : Str) : Bool :=
  properName name && !(decide (slash ∈ name)) && !(decide (nul ∈ name))

/-- The table describes a file system: no path is listed twice, and every entry has a valid
name and lies in a directory. -/
def FS.wf (fs : FS) : Bool :=
  decide (fs.entries.map Prod.fst).Nodup &&
  fs.entries.all (fun e =>
    match e.1.getLast? with
    | none => false
    | some name =>
      validName name && decide (fs.lookup e.1.dropLast = some Node.directory))

/-- The storage tree right after `Storage::init`, with the working directory at the root: the
directories `storage`, `storage/files` and `storage/metadata`. -/
def emptyStore : FS :=
  { entries := [(["storage".toList], Node.directory),
                (["storage".toList, "files".toList], Node.directory),
                (["storage".toList, "metadata".toList], Node.directory)],
    cwd := [] }

/-- An environment in which streams open and every byte is accepted. -/
def goodEnv : WriteEnv := { canOpen := true, capacity := 4096, stamp := 1700000000 }

/-- The upload scenario of the specification: `report.pdf`, twelve bytes, `application/pdf`,
saved at millisecond 1700000000000. -/
def uploadedFile : Str × FS :=
  saveFile emptyStore goodEnv 1700000000000 "report.pdf".toList "%PDF-1.4 tst".toList
    "application/pdf".toList 12

/-- The upload scenario after `saveMetadata` for the key returned by `saveFile`. -/
def uploadedStore : Bool × FS :=
  saveMetadata uploadedFile.2 goodEnv 1700000000 uploadedFile.1 "report.pdf".toList
    "application/pdf".toList 12

/-- A store with the two files `a.txt` and `b.bin`, a hidden file, a subdirectory and a socket
in the files directory, and no sidecars. -/
def mixedStore : FS :=
  { entries := emptyStore.entries ++
      [(["storage".toList, "files".toList, "a.txt".toList], Node.regular "hello".toList 1700000001),
       (["storage".toList, "files".toList, ".hidden".toList], Node.regular "x".toList 1700000002),
       (["storage".toList, "files".toList, "sub".toList], Node.directory),
       (["storage".toList, "files".toList, "sock".toList], Node.special),
       (["storage".toList, "files".toList, "b.bin".toList], Node.regular "12".toList 1700000003)],
    cwd := [] }

/-- A store whose files directory holds a file modified at second 999999999 and one modified
a second later. -/
def rolloverStore : FS :=
  { entries := emptyStore.entries ++
      [(["storage".toList, "files".toList, "later".toList], Node.regular [] 1000000000),
       (["storage".toList, "files".toList, "earlier".toList], Node.regular [] 999999999)],
    cwd := [] }

/-- The key `a.txt`, a NUL and `x`, as it arrives from the JSON text `a.txt\u0000x`. -/
def nulKeyX : Str := "a.txt".toList ++ [nul] ++ "x".toList

/-- The key `a.txt`, a NUL and `y`. -/
def nulKeyY : Str := "a.txt".toList ++ [nul] ++ "y".toList

/-- A store whose files directory holds one uploaded file, `1700000000000-a.json`. -/
def jsonStore : FS :=
  { entries := emptyStore.entries ++
      [(["storage".toList, "files".toList, "1700000000000-a.json".toList], Node.regular "x".toList 1700000001)],
    cwd := [] }

/-! ## Properties -/

theorem lookupEntry_filter_ne (q p : Path) (es : List (Path × Node)) (h : p ≠ q) :
    lookupEntry p (es.filter (fun e => !(e.1 = q))) = lookupEntry p es := by
  induction es with
  | nil => rfl
  | cons e es ih =>
    by_cases he : e.1 = q
    · have hp : ¬ e.1 = p := fun h' => h (h' ▸ he)
      rw [List.filter_cons_of_neg (by simp [he])]
      simp only [lookupEntry, hp, if_false, ih]
    · rw [List.filter_cons_of_pos (by simp [he])]
      simp only [lookupEntry, ih]

theorem lookupEntry_filter_self (q : Path) (es : List (Path × Node)) :
    lookupEntry q (es.filter (fun e => !(e.1 = q))) = none := by
  induction es with
  | nil => rfl
  | cons e es ih =>
    by_cases he : e.1 = q
    · rw [List.filter_cons_of_neg (by simp [he])]; exact ih
    · rw [List.filter_cons_of_pos (by simp [he])]
      simp only [lookupEntry, he, if_false, ih]

theorem lookup_erase_ne (fs : FS) (q p : Path) (h : p ≠ q) :
    (fs.erase q).lookup p = fs.lookup p := by
  unfold FS.lookup FS.erase
  by_cases hp : p = []
  · simp only [hp, if_true]
  · simp only [hp, if_false]
    exact lookupEntry_filter_ne q p fs.entries h

theorem lookup_erase_self (fs : FS) (q : Path) (h : q ≠ []) :
    (fs.erase q).lookup q = none := by
  unfold FS.lookup FS.erase
  simp only [h, if_false]
  exact lookupEntry_filter_self q fs.entries

theorem lookupEntry_map_put (q p : Path) (n : Node) (es : List (Path × Node)) :
    lookupEntry p (es.map (fun e => if e.1 = q then (q, n) else e))
      = if p = q then (if (es.any (fun e => e.1 = q)) = true then some n else none)
        else lookupEntry p es := by
  induction es with
  | nil => simp only [List.map_nil, lookupEntry, List.any_nil, Bool.false_eq_true, if_false, ite_self]
  | cons e es ih =>
    rw [List.map_cons, List.any_cons]
    by_cases he : e.1 = q
    · by_cases hp : p = q
      · simp only [lookupEntry, he, hp, if_true, decide_True, Bool.true_or]
      · have : ¬ q = p := fun h => hp h.symm
        simp only [lookupEntry, he, hp, this, if_true, if_false, ih]
    · by_cases hp : p = q
      · subst hp
        simp only [lookupEntry, he, if_false, ih, if_true, decide_False, Bool.false_or]
      · simp only [lookupEntry, he, hp, if_false, ih]

theorem lookupEntry_append_new (q p : Path) (n : Node) (es : List (Path × Node))
    (hq : es.any (fun e => e.1 = q) = false) :
    lookupEntry p (es ++ [(q, n)]) = if p = q then some n else lookupEntry p es := by
  induction es with
  | nil =>
    by_cases hp : p = q
    · simp only [List.nil_append, lookupEntry, hp, if_true]
    · have : ¬ q = p := fun h => hp h.symm
      simp only [List.nil_append, lookupEntry, hp, this, if_false]
  | cons e es ih =>
    rw [List.any_cons, Bool.or_eq_false_iff, decide_eq_false_iff_not] at hq
    rw [List.cons_append]
    by_cases hep : e.1 = p
    · have : ¬ p = q := fun h => hq.1 (hep.trans h)
      simp only [lookupEntry, hep, this, if_true, if_false]
    · simp only [lookupEntry, hep, if_false, ih hq.2]

theorem lookup_put (fs : FS) (q p : Path) (n : Node) (hq : q ≠ []) :
    (fs.put q n).lookup p = if p = q then some n else fs.lookup p := by
  unfold FS.lookup FS.put
  by_cases hany : fs.entries.any (fun e => e.1 = q) = true
  · simp only [hany, if_true]
    by_cases hp : p = []
    · subst hp
      have : ¬ ([] : Path) = q := fun h => hq h.symm
      simp only [this, if_true, if_false]
    · simp only [hp, if_false, lookupEntry_map_put, hany, if_true]
  · have hany2 : fs.entries.any (fun e => e.1 = q) = false := by
      cases hb : fs.entries.any (fun e => e.1 = q)
      · rfl
      · exact absurd hb hany
    simp only [hany2, Bool.false_eq_true, if_false]
    by_cases hp : p = []
    · subst hp
      have : ¬ ([] : Path) = q := fun h => hq h.symm
      simp only [this, if_true, if_false]
    · simp only [hp, if_false]
      exact lookupEntry_append_new q p n fs.entries hany2

theorem cwd_erase (fs : FS) (q : Path) : (fs.erase q).cwd = fs.cwd := rfl

theorem cwd_put (fs : FS) (q : Path) (n : Node) : (fs.put q n).cwd = fs.cwd := by
  unfold FS.put; split <;> rfl

/-- Resolution only asks which paths are directories. -/
theorem walk_mono (fs fs2 : FS)
    (h : ∀ p, fs.lookup p = some Node.directory → fs2.lookup p = some Node.directory) :
    ∀ (cs : List Str) (cur q : Path), walk fs cur cs = some q → walk fs2 cur cs = some q := by
  intro cs
  induction cs with
  | nil => intro cur q hq; simpa [walk] using hq
  | cons c cs ih =>
    intro cur q hq
    unfold walk at hq ⊢
    by_cases hd : fs.lookup cur = some Node.directory
    · simp only [hd, if_true] at hq
      simp only [h cur hd, if_true]
      split at hq
      · rename_i h1; simp only [h1, if_true]; exact ih _ _ hq
      · rename_i h1
        simp only [h1, if_false]
        split at hq
        · rename_i h2; simp only [h2, if_true]; exact ih _ _ hq
        · rename_i h2; simp only [h2, if_false]; exact ih _ _ hq
    · simp [hd] at hq

/-- What a successful `writeStream` did. -/
theorem writeStream_some (fs fs1 : FS) (env : WriteEnv) (path data : Str) (good : Bool)
    (h : writeStream fs env path data = some (good, fs1)) :
    ∃ q, resolve fs path = some q ∧ fs.lookup q ≠ some Node.directory ∧ q ≠ [] ∧
      fs1 = fs.put q (Node.regular (data.take env.capacity) env.stamp) ∧
      good = decide (data.length ≤ env.capacity) := by
  unfold writeStream at h
  split at h
  · exact absurd h (by simp)
  · split at h
    · exact absurd h (by simp)
    · rename_i q hq
      split at h
      · exact absurd h (by simp)
      · split at h
        · exact absurd h (by simp)
        · have hnd : fs.lookup q ≠ some Node.directory := by
            intro hd; rw [hd] at h; simp at h
          have hne : q ≠ [] := by
            intro hq0; apply hnd; rw [hq0]; rfl
          refine ⟨q, hq, hnd, hne, ?_⟩
          split at h
          · exact absurd h (by simp)
          · exact absurd h (by simp)
          · simp only [Option.some.injEq, Prod.mk.injEq] at h
            exact ⟨h.2.symm, h.1.symm⟩

/-- Directories stay directories when a non-directory path is written. -/
theorem put_keeps_dirs (fs : FS) (q : Path) (n : Node) (hq : q ≠ [])
    (hnd : fs.lookup q ≠ some Node.directory) (p : Path)
    (hp : fs.lookup p = some Node.directory) :
    (fs.put q n).lookup p = some Node.directory := by
  rw [lookup_put fs q p n hq]
  have : ¬ p = q := fun h => hnd (h ▸ hp)
  simp only [this, if_false, hp]

/-- After a write the same path string resolves to the written node. -/
theorem resolve_after_put (fs : FS) (q : Path) (n : Node) (path : Str) (hq : q ≠ [])
    (hnd : fs.lookup q ≠ some Node.directory) (hr : resolve fs path = some q) :
    stat (fs.put q n) path = some n := by
  have hw : resolve (fs.put q n) path = some q := by
    unfold resolve at hr ⊢
    rw [cwd_put]
    exact walk_mono fs (fs.put q n) (put_keeps_dirs fs q n hq hnd) _ _ _ hr
  unfold stat
  rw [hw]
  simp only [lookup_put fs q q n hq, if_true]

/-- C2. File content round trip: whenever `saveFile` returns a non-empty key, `readFile` on
that key in the resulting state succeeds and yields exactly the content that was saved. -/
theorem saveFile_readFile_roundtrip (fs : FS) (env : WriteEnv) (nowMs : Int)
    (filename content contentType : Str) (size : Nat)
    (h : (saveFile fs env nowMs filename content contentType size).1 ≠ []) :
    readFile (saveFile fs env nowMs filename content contentType size).2
      (saveFile fs env nowMs filename content contentType size).1 = some content := by
  unfold saveFile at h ⊢
  simp only at h ⊢
  cases hw : writeStream fs env (filesDir_ ++ "/".toList ++ (to_string nowMs ++ "-".toList ++ filename)) content with
  | none => rw [hw] at h; exact absurd rfl h
  | some r =>
    obtain ⟨good, fs1⟩ := r
    rw [hw] at h
    simp only at h ⊢
    cases good with
    | false => exact absurd rfl h
    | true =>
      obtain ⟨q, hr, hnd, hne, hfs, hgood⟩ := writeStream_some fs fs1 env _ content true hw
      have hlen : content.length ≤ env.capacity := by simpa using hgood.symm
      simp only [if_true]
      unfold readFile getFilePath
      rw [hfs, resolve_after_put fs q _ _ hne hnd hr, List.take_of_length_le hlen]

theorem removePath_cwd (fs : FS) (path : Str) : (removePath fs path).2.cwd = fs.cwd := by
  unfold removePath
  split
  · rfl
  · split
    · rfl
    · split <;> rfl
    · rfl

/-- A removal either changes nothing or erases the node the path resolves to. -/
theorem removePath_cases (fs : FS) (path : Str) :
    (removePath fs path).2 = fs ∨
      ∃ q, resolve fs path = some q ∧ q ≠ [] ∧ (removePath fs path).2 = fs.erase q := by
  unfold removePath
  split
  · exact Or.inl rfl
  · rename_i q hq
    split
    · exact Or.inl rfl
    · split
      · exact Or.inl rfl
      · rename_i hc
        refine Or.inr ⟨q, hq, ?_, rfl⟩
        intro h0; exact hc (Or.inl h0)
    · rename_i n hn hnd
      refine Or.inr ⟨q, hq, ?_, rfl⟩
      intro h0
      rw [h0] at hnd
      have h1 : fs.lookup [] = some Node.directory := rfl
      rw [h1] at hnd
      exact hn (Option.some.inj hnd).symm

theorem removePath_lookup_le (fs : FS) (path : Str) (p : Path) (n : Node)
    (h : (removePath fs path).2.lookup p = some n) : fs.lookup p = some n := by
  rcases removePath_cases fs path with h0 | ⟨q, _, hq, h1⟩
  · rwa [h0] at h
  · rw [h1] at h
    by_cases hp : p = q
    · rw [hp, lookup_erase_self fs q hq] at h; exact absurd h (by simp)
    · rwa [lookup_erase_ne fs q p hp] at h

/-- Removing a path that names a regular file succeeds and erases it. -/
theorem removePath_regular (fs : FS) (path c : Str) (m : Int)
    (h : stat fs path = some (Node.regular c m)) :
    ∃ q, resolve fs path = some q ∧ q ≠ [] ∧ removePath fs path = (true, fs.erase q) := by
  unfold stat at h
  cases hr : resolve fs path with
  | none => rw [hr] at h; exact absurd h (by simp)
  | some q =>
    rw [hr] at h
    simp only at h
    refine ⟨q, rfl, ?_, ?_⟩
    · intro h0
      rw [h0] at h
      have h1 : fs.lookup [] = some Node.directory := rfl
      rw [h1] at h
      exact absurd h (by simp)
    · unfold removePath
      rw [hr]
      simp only [h]

/-- Removing a path that names nothing fails and changes nothing. -/
theorem removePath_absent (fs : FS) (path : Str) (h : stat fs path = none) :
    removePath fs path = (false, fs) := by
  unfold stat at h
  unfold removePath
  cases hr : resolve fs path with
  | none => rfl
  | some q =>
    rw [hr] at h
    simp only at h
    simp only [h]

/-- A path that resolved to an erased node names nothing afterwards, whatever
else has been taken away since. -/
theorem stat_none_of_erased (fs fs2 : FS) (path : Str) (q : Path)
    (hr : resolve fs path = some q) (hcwd : fs2.cwd = fs.cwd)
    (hle : ∀ p n, fs2.lookup p = some n → fs.lookup p = some n)
    (hq : fs2.lookup q = none) : stat fs2 path = none := by
  unfold stat
  cases hr2 : resolve fs2 path with
  | none => rfl
  | some q2 =>
    simp only
    have : resolve fs path = some q2 := by
      unfold resolve at hr2 ⊢
      rw [hcwd] at hr2
      exact walk_mono fs2 fs (fun p hp => hle p _ hp) _ _ _ hr2
    rw [hr] at this
    rw [← Option.some.inj this]; exact hq

theorem deleteFile_cwd (fs : FS) (key : Str) : (deleteFile fs key).2.cwd = fs.cwd := by
  unfold deleteFile
  simp only [removePath_cwd]

/-- State after `deleteFile` on a key whose file is regular: success, and the path of the file names
nothing any more. -/
theorem deleteFile_regular (fs : FS) (key c : Str) (m : Int)
    (h : stat fs (getFilePath key) = some (Node.regular c m)) :
    (deleteFile fs key).1 = true ∧ stat (deleteFile fs key).2 (getFilePath key) = none := by
  obtain ⟨q, hr, hq, hrem⟩ := removePath_regular fs _ c m h
  unfold deleteFile
  simp only [hrem]
  refine ⟨trivial, ?_⟩
  apply stat_none_of_erased fs _ _ q hr
  · rw [removePath_cwd]; rfl
  · intro p n hp
    have h1 := removePath_lookup_le _ _ _ _ hp
    by_cases hpq : p = q
    · rw [hpq, lookup_erase_self fs q hq] at h1; exact absurd h1 (by simp)
    · rwa [lookup_erase_ne fs q p hpq] at h1
  · cases hl : (removePath (fs.erase q) (getMetadataPath key)).2.lookup q with
    | none => rfl
    | some n =>
      have h1 := removePath_lookup_le _ _ _ _ hl
      rw [lookup_erase_self fs q hq] at h1; exact absurd h1 (by simp)

theorem insertBy_perm {α : Type} (comp : α → α → Bool) (x : α) :
    ∀ l : List α, (insertBy comp x l).Perm (x :: l) := by
  intro l
  induction l with
  | nil => exact List.Perm.refl _
  | cons y ys ih =>
    unfold insertBy
    split
    · exact ((List.Perm.cons y ih).trans (List.Perm.swap x y ys))
    · exact List.Perm.refl _

/-- The result of `stdSort` is a rearrangement of its input. -/
theorem stdSort_perm {α : Type} (comp : α → α → Bool) :
    ∀ l : List α, (stdSort comp l).Perm l := by
  intro l
  induction l with
  | nil => exact List.Perm.refl _
  | cons x xs ih =>
    unfold stdSort
    exact (insertBy_perm comp x _).trans (List.Perm.cons x ih)

/-- The sidecar block leaves key, size and modification time alone. -/
theorem applyMetadata_fixed (fs : FS) (key : Str) (info : FileInfo) :
    (applyMetadata fs key info).key = info.key ∧
    (applyMetadata fs key info).size = info.size ∧
    (applyMetadata fs key info).lastModified = info.lastModified := by
  unfold applyMetadata
  split
  · exact ⟨rfl, rfl, rfl⟩
  · simp only
    split <;> split <;> (try split) <;> (try split) <;> exact ⟨rfl, rfl, rfl⟩

/-- Every name kept by the loop of `listFiles` is visible and names a regular file, and
is the key of its entry. -/
theorem listEntry_some (fs : FS) (name : Str) (e : FileInfo)
    (h : listEntry fs name = some e) :
    e.key = name ∧ name.head? ≠ some dot ∧
      ∃ c m, stat fs (filesDir_ ++ "/".toList ++ name) = some (Node.regular c m) := by
  unfold listEntry at h
  split at h
  · exact absurd h (by simp)
  · rename_i hdot
    split at h
    · rename_i c m hst
      simp only [Option.some.injEq] at h
      refine ⟨?_, hdot, c, m, hst⟩
      rw [← h]
      split
      · exact (applyMetadata_fixed fs name _).1
      · exact (applyMetadata_fixed fs name _).1
    · exact absurd h (by simp)

/-- Every entry of `listFiles` comes from a name of the directory listing that the loop kept. -/
theorem mem_listFiles (fs : FS) (e : FileInfo) (h : e ∈ listFiles fs) :
    ∃ names name, readdir fs filesDir_ = some names ∧ name ∈ names ∧
      listEntry fs name = some e := by
  unfold listFiles at h
  split at h
  · exact absurd h (by simp)
  · rename_i names hn
    have h1 := (stdSort_perm newerFirst _).mem_iff.mp h
    obtain ⟨name, hmem, hname⟩ := List.mem_filterMap.mp h1
    exact ⟨names, name, hn, hmem, hname⟩

/-- C9. Defaults without metadata: when the path of the key names a regular file and the sidecar
path names nothing, `getFileInfo` succeeds with the key as original name, the default content
type, the byte length as size and the decimal modification time. -/
theorem getFileInfo_defaults (fs : FS) (key c : Str) (m : Int)
    (hfile : stat fs (getFilePath key) = some (Node.regular c m))
    (hside : stat fs (getMetadataPath key) = none) :
    getFileInfo fs key = some
      { key := key, size := c.length, lastModified := to_string m,
        contentType := "application/octet-stream".toList, originalName := key } := by
  unfold getFileInfo
  unfold getFilePath at hfile
  rw [hfile]
  simp only
  unfold applyMetadata readStream
  rw [hside]
  rfl

theorem splitPath_ne_nil (s : Str) : splitPath s ≠ [] := by
  cases s with
  | nil => simp [splitPath]
  | cons c cs =>
    unfold splitPath
    split
    · simp
    · split <;> simp

theorem splitPath_append_slash (a b : Str) :
    splitPath (a ++ slash :: b) = splitPath a ++ splitPath b := by
  induction a with
  | nil => simp [splitPath]
  | cons c cs ih =>
    rw [List.cons_append]
    by_cases hc : c = slash
    · simp only [splitPath, hc, if_true, ih, List.cons_append, List.nil_append]
    · simp only [splitPath, hc, if_false, ih]
      cases hs : splitPath cs with
      | nil => exact absurd hs (splitPath_ne_nil cs)
      | cons h t => simp

theorem splitPath_plain (s : Str) (h : slash ∉ s) : splitPath s = [s] := by
  induction s with
  | nil => rfl
  | cons c cs ih =>
    have hc : ¬ c = slash := fun hc => h (hc ▸ List.mem_cons_self _ _)
    have hcs : slash ∉ cs := fun hm => h (List.mem_cons_of_mem _ hm)
    simp only [splitPath, hc, if_false, ih hcs]

theorem c_str_of_not_mem (p : Str) (h : nul ∉ p) : c_str p = p := by
  unfold c_str
  apply List.takeWhile_eq_self_iff.mpr
  intro c hc
  have : ¬ c = nul := fun e => h (e ▸ hc)
  simp only [this, decide_False, Bool.not_false]

theorem c_str_append (a b : Str) (h : nul ∉ a) : c_str (a ++ b) = a ++ c_str b := by
  induction a with
  | nil => rfl
  | cons c cs ih =>
    have hc : ¬ c = nul := fun e => h (e ▸ List.mem_cons_self _ _)
    have hcs : nul ∉ cs := fun hm => h (List.mem_cons_of_mem _ hm)
    have ih2 := ih hcs
    unfold c_str at ih2 ⊢
    rw [List.cons_append, List.takeWhile_cons_of_pos (by simp only [hc, decide_False,
      Bool.not_false]), ih2]
    rfl

theorem c_str_plain (p : Str) (h : slash ∉ p) : slash ∉ c_str p := by
  intro hm
  unfold c_str at hm
  exact h ((List.takeWhile_sublist _).subset hm)

/-- Components of the file path of a key, as the system reads it. -/
theorem splitPath_getFilePath (key : Str) :
    splitPath (c_str (getFilePath key))
      = "storage".toList :: "files".toList :: splitPath (c_str key) := by
  have h1 : getFilePath key = (filesDir_ ++ [slash]) ++ key := by
    unfold getFilePath; rfl
  have h0 : nul ∉ filesDir_ ++ [slash] := by decide
  have h2 : splitPath filesDir_ = ["storage".toList, "files".toList] := by decide
  rw [h1, c_str_append _ _ h0, List.append_assoc, List.singleton_append,
    splitPath_append_slash, h2]
  rfl

/-- Components of the sidecar path of a key, as the system reads it. -/
theorem splitPath_getMetadataPath (key : Str) :
    splitPath (c_str (getMetadataPath key))
      = "storage".toList :: "metadata".toList :: splitPath (c_str (key ++ ".json".toList)) := by
  have h1 : getMetadataPath key = (metadataDir_ ++ [slash]) ++ (key ++ ".json".toList) := by
    unfold getMetadataPath
    rw [List.append_assoc]; rfl
  have h0 : nul ∉ metadataDir_ ++ [slash] := by decide
  have h2 : splitPath metadataDir_ = ["storage".toList, "metadata".toList] := by decide
  rw [h1, c_str_append _ _ h0, List.append_assoc, List.singleton_append,
    splitPath_append_slash, h2]
  rfl

/-- One step of `walk` on a real name. -/
theorem walk_name (fs : FS) (cur : Path) (c : Str) (cs : List Str) (hc : properName c = true) :
    walk fs cur (c :: cs) =
      if fs.lookup cur = some Node.directory then walk fs (cur ++ [c]) cs else none := by
  have h1 : ¬ (c = [] ∨ c = [dot]) := by
    intro h; rcases h with h | h <;> (rw [h] at hc; revert hc; decide)
  have h2 : ¬ c = [dot, dot] := by
    intro h; rw [h] at hc; revert hc; decide
  rw [walk]
  simp only [h1, h2, if_false]

theorem properName_json (key : Str) : properName (key ++ ".json".toList) = true := by
  have hlen : (key ++ ".json".toList).length = key.length + 5 := by
    rw [List.length_append]; rfl
  unfold properName
  have h1 : ¬ key ++ ".json".toList = [] := by
    intro h; rw [h] at hlen; simp at hlen
  have h2 : ¬ key ++ ".json".toList = [dot] := by
    intro h; rw [h] at hlen; simp at hlen
  have h3 : ¬ key ++ ".json".toList = [dot, dot] := by
    intro h; rw [h] at hlen; simp at hlen
  simp only [h1, h2, h3, decide_False, Bool.or_self, Bool.not_false]

theorem json_plain (key : Str) (h : slash ∉ key) : slash ∉ key ++ ".json".toList := by
  intro hm
  rcases List.mem_append.mp hm with h1 | h1
  · exact h h1
  · revert h1; decide

theorem json_nonul (key : Str) (h : nul ∉ key) : nul ∉ key ++ ".json".toList := by
  intro hm
  rcases List.mem_append.mp hm with h1 | h1
  · exact h h1
  · revert h1; decide

theorem metadataPath_dropLast (fs : FS) :
    (metadataPath fs).dropLast = fs.cwd ++ ["storage".toList] := by
  unfold metadataPath
  have : fs.cwd ++ ["storage".toList, "metadata".toList]
      = (fs.cwd ++ ["storage".toList]) ++ ["metadata".toList] := by simp
  rw [this, List.dropLast_concat]

/-- Where the sidecar path of a key without `/` can lead: to an entry of the metadata
directory, to the metadata directory itself, or to its parent. -/
theorem resolve_sidecar_cases (fs : FS) (key : Str) (h : slash ∉ key) (q : Path)
    (hq : resolve fs (getMetadataPath key) = some q) :
    q = metadataPath fs ++ [c_str (key ++ ".json".toList)] ∨ q = metadataPath fs
      ∨ q = fs.cwd ++ ["storage".toList] := by
  unfold resolve at hq
  rw [splitPath_getMetadataPath, splitPath_plain _ (c_str_plain _ (json_plain key h)),
    walk_name fs _ _ _ (by decide), walk_name fs _ _ _ (by decide)] at hq
  have hM : fs.cwd ++ ["storage".toList] ++ ["metadata".toList] = metadataPath fs := by
    unfold metadataPath; simp
  rw [hM] at hq
  split at hq
  · split at hq
    · rw [walk] at hq
      split at hq
      · split at hq
        · simp only [walk, Option.some.injEq] at hq
          exact Or.inr (Or.inl hq.symm)
        · split at hq
          · simp only [walk, Option.some.injEq, metadataPath_dropLast] at hq
            exact Or.inr (Or.inr hq.symm)
          · simp only [walk, Option.some.injEq] at hq
            exact Or.inl hq.symm
      · exact absurd hq (by simp)
    · exact absurd hq (by simp)
  · exact absurd hq (by simp)

/-- Where the sidecar path of a key without `/` and without NUL leads, when it resolves at
all. -/
theorem resolve_sidecar_plain (fs : FS) (key : Str) (h : slash ∉ key) (hn : nul ∉ key)
    (q : Path) (hq : resolve fs (getMetadataPath key) = some q) :
    q = metadataPath fs ++ [key ++ ".json".toList] := by
  unfold resolve at hq
  rw [splitPath_getMetadataPath, c_str_of_not_mem _ (json_nonul key hn),
    splitPath_plain _ (json_plain key h),
    walk_name fs _ _ _ (by decide), walk_name fs _ _ _ (by decide),
    walk_name fs _ _ _ (properName_json key)] at hq
  split at hq
  · split at hq
    · split at hq
      · simp only [walk, Option.some.injEq] at hq
        unfold metadataPath
        rw [← hq]
        simp only [List.append_assoc, List.cons_append, List.nil_append]
      · exact absurd hq (by simp)
    · exact absurd hq (by simp)
  · exact absurd hq (by simp)

theorem pathUnder_files_sidecar (fs : FS) (name : Str) :
    pathUnder (filesPath fs) (metadataPath fs ++ [name]) = false := by
  unfold pathUnder filesPath metadataPath
  rw [decide_eq_false_iff_not]
  intro h
  have hlen : (fs.cwd ++ ["storage".toList, "files".toList]).length = fs.cwd.length + 2 := by
    simp
  rw [hlen, List.append_assoc, List.take_append_eq_append_take] at h
  simp only [List.take_of_length_le (Nat.le_add_right _ _), Nat.add_sub_cancel_left] at h
  have h2 := List.append_cancel_left h
  simp only [List.cons_append, List.nil_append, List.take_succ_cons, List.take_zero,
    List.cons.injEq] at h2
  exact absurd h2.2.1 (by decide)

theorem pathUnder_files_metadata (fs : FS) :
    pathUnder (filesPath fs) (metadataPath fs) = false := by
  have h := pathUnder_files_sidecar fs []
  unfold pathUnder at h ⊢
  rw [decide_eq_false_iff_not] at h ⊢
  intro h2
  apply h
  have hlen : (filesPath fs).length = (metadataPath fs).length := by
    unfold filesPath metadataPath; simp
  rw [hlen, List.take_left']
  · rw [hlen, List.take_length] at h2; exact h2
  · rfl

theorem pathUnder_files_storage (fs : FS) :
    pathUnder (filesPath fs) (fs.cwd ++ ["storage".toList]) = false := by
  unfold pathUnder
  rw [decide_eq_false_iff_not]
  intro h
  have h1 := congrArg List.length h
  rw [List.length_take] at h1
  unfold filesPath at h1
  simp only [List.length_append, List.length_cons, List.length_nil] at h1
  omega

/-- The sidecar path of a key without `/` never leads into the files directory. -/
theorem sidecar_outside_of_plain (fs : FS) (key : Str) (h : slash ∉ key) :
    ∀ q, resolve fs (getMetadataPath key) = some q → pathUnder (filesPath fs) q = false := by
  intro q hq
  rcases resolve_sidecar_cases fs key h q hq with h1 | h1 | h1
  · rw [h1]; exact pathUnder_files_sidecar fs _
  · rw [h1]; exact pathUnder_files_metadata fs
  · rw [h1]; exact pathUnder_files_storage fs

theorem filesDirContents_erase (fs : FS) (q : Path)
    (hq : pathUnder (filesPath fs) q = false) :
    filesDirContents (fs.erase q) = filesDirContents fs := by
  unfold filesDirContents FS.erase filesPath
  simp only
  rw [List.filter_filter]
  apply List.filter_congr
  intro e _
  by_cases he : e.1 = q
  · unfold filesPath at hq
    rw [he, hq]; rfl
  · simp [he]

/-- Removing a path that names nothing, or a directory that is not empty, fails and changes
nothing. -/
theorem removePath_nothing (fs : FS) (path : Str) (h : namesNothing fs path = true) :
    removePath fs path = (false, fs) := by
  unfold namesNothing at h
  unfold removePath
  cases hr : resolve fs path with
  | none => rfl
  | some q =>
    rw [hr] at h
    simp only at h ⊢
    cases hl : fs.lookup q with
    | none => rfl
    | some n =>
      rw [hl] at h
      cases n with
      | regular c m => exact absurd h (by simp)
      | special => exact absurd h (by simp)
      | directory =>
        simp only at h ⊢
        simp only [h, or_true, if_true]

/-- C7 (amended). The function `deleteFile` fails on a key whose file path names nothing at all
(no file, no directory, no special file) or names a directory that is not empty; and it
leaves the contents of the files directory as they were whenever the sidecar path of the key
does not lead into the files directory. -/
theorem deleteFile_absent_fails (fs : FS) (key : Str)
    (hfile : namesNothing fs (getFilePath key) = true) :
    (deleteFile fs key).1 = false ∧
      ((∀ q, resolve fs (getMetadataPath key) = some q →
          pathUnder (filesPath fs) q = false) →
        filesDirContents (deleteFile fs key).2 = filesDirContents fs) := by
  unfold deleteFile
  simp only [removePath_nothing fs _ hfile]
  refine ⟨trivial, ?_⟩
  intro hside
  rcases removePath_cases fs (getMetadataPath key) with h0 | ⟨q, hr, _, h1⟩
  · rw [h0]
  · rw [h1]
    exact filesDirContents_erase fs q (hside q hr)

theorem filesPath_dropLast (fs : FS) : (filesPath fs).dropLast = fs.cwd ++ ["storage".toList] := by
  unfold filesPath
  have : fs.cwd ++ ["storage".toList, "files".toList]
      = (fs.cwd ++ ["storage".toList]) ++ ["files".toList] := by simp
  rw [this, List.dropLast_concat]

/-- Closed form of resolving the file path of a key without `/` and without NUL. -/
theorem resolve_file_plain (fs : FS) (key : Str) (h : slash ∉ key) (hn : nul ∉ key) :
    resolve fs (getFilePath key) =
      if fs.lookup fs.cwd = some Node.directory then
        if fs.lookup (fs.cwd ++ ["storage".toList]) = some Node.directory then
          if fs.lookup (filesPath fs) = some Node.directory then some (plainTarget fs key)
          else none
        else none
      else none := by
  unfold resolve
  rw [splitPath_getFilePath, c_str_of_not_mem key hn, splitPath_plain _ h,
    walk_name fs _ _ _ (by decide), walk_name fs _ _ _ (by decide)]
  have hF : fs.cwd ++ ["storage".toList] ++ ["files".toList] = filesPath fs := by
    unfold filesPath; simp
  rw [hF]
  by_cases h0 : fs.lookup fs.cwd = some Node.directory
  · by_cases h1 : fs.lookup (fs.cwd ++ ["storage".toList]) = some Node.directory
    · by_cases h2 : fs.lookup (filesPath fs) = some Node.directory
      · simp only [h0, h1, h2, if_true]
        unfold plainTarget
        rw [walk]
        simp only [h2, if_true]
        by_cases h3 : key = [] ∨ key = [dot]
        · simp only [h3, if_true, walk]
        · by_cases h4 : key = [dot, dot]
          · subst h4
            simp only [h3, if_true, if_false, walk]
          · simp only [h3, h4, if_false, walk]
      · simp only [h0, h1, h2, if_true, if_false]
        rw [walk]
        simp only [h2, if_false]
    · simp only [h0, h1, if_true, if_false]
  · simp only [h0, if_false]

theorem stat_file_plain (fs : FS) (key : Str) (h : slash ∉ key) (hn : nul ∉ key) :
    stat fs (getFilePath key) =
      if fs.lookup fs.cwd = some Node.directory
          ∧ fs.lookup (fs.cwd ++ ["storage".toList]) = some Node.directory
          ∧ fs.lookup (filesPath fs) = some Node.directory
      then fs.lookup (plainTarget fs key) else none := by
  unfold stat
  rw [resolve_file_plain fs key h hn]
  by_cases h0 : fs.lookup fs.cwd = some Node.directory
  · by_cases h1 : fs.lookup (fs.cwd ++ ["storage".toList]) = some Node.directory
    · by_cases h2 : fs.lookup (filesPath fs) = some Node.directory
      · simp only [h0, h1, h2, if_true, and_self]
      · simp only [h0, h1, h2, if_true, if_false, and_false]
    · simp only [h0, h1, if_true, if_false, and_false, false_and]
  · simp only [h0, if_false, false_and]

/-- A key without `/` and without NUL whose file path names a regular file is a real name
directly inside the files directory. -/
theorem regular_plain_target (fs : FS) (key c : Str) (m : Int) (h : slash ∉ key)
    (hn : nul ∉ key)
    (hst : stat fs (getFilePath key) = some (Node.regular c m)) :
    resolve fs (getFilePath key) = some (filesPath fs ++ [key]) := by
  have hs := stat_file_plain fs key h hn
  rw [hst] at hs
  by_cases hc : fs.lookup fs.cwd = some Node.directory
      ∧ fs.lookup (fs.cwd ++ ["storage".toList]) = some Node.directory
      ∧ fs.lookup (filesPath fs) = some Node.directory
  · simp only [hc, and_self, if_true] at hs
    rw [resolve_file_plain fs key h hn]
    simp only [hc.1, hc.2.1, hc.2.2, if_true]
    unfold plainTarget at hs ⊢
    by_cases h3 : key = [] ∨ key = [dot]
    · simp only [h3, if_true, hc.2.2] at hs
      exact absurd hs (by simp)
    · by_cases h4 : key = [dot, dot]
      · subst h4
        simp only [h3, if_true, if_false, filesPath_dropLast] at hs
        rw [hc.2.1] at hs
        exact absurd hs (by simp)
      · simp only [h3, h4, if_false]
  · simp only [hc, if_false] at hs
    exact absurd hs (by simp)

theorem path_length_ne {p q : Path} (h : p.length ≠ q.length) : p ≠ q :=
  fun e => h (e ▸ rfl)

theorem filesPath_entry_ne_sidecar (fs : FS) (a b : Str) :
    filesPath fs ++ [a] ≠ metadataPath fs ++ [b] := by
  intro h
  unfold filesPath metadataPath at h
  rw [List.append_assoc, List.append_assoc] at h
  have h2 := List.append_cancel_left h
  simp only [List.cons_append, List.nil_append, List.cons.injEq] at h2
  exact absurd h2.2.1 (by decide)

/-- The paths consulted for a key without `/` and without NUL are none of the two paths that
`deleteFile` may erase for a different such key. -/
theorem lookup_agree_stat (fs fs2 : FS) (k k2 : Str) (h2 : slash ∉ k2) (hn2 : nul ∉ k2)
    (hne : k2 ≠ k)
    (hcwd : fs2.cwd = fs.cwd)
    (hagree : ∀ p, p ≠ filesPath fs ++ [k] → p ≠ metadataPath fs ++ [k ++ ".json".toList] →
      fs2.lookup p = fs.lookup p) :
    stat fs2 (getFilePath k2) = stat fs (getFilePath k2) := by
  have hF2 : filesPath fs2 = filesPath fs := by unfold filesPath; rw [hcwd]
  have hlenF : (filesPath fs).length = fs.cwd.length + 2 := by unfold filesPath; simp
  have hlenM : (metadataPath fs).length = fs.cwd.length + 2 := by unfold metadataPath; simp
  have hT2 : plainTarget fs2 k2 = plainTarget fs k2 := by unfold plainTarget; rw [hF2]
  have e0 : fs2.lookup fs.cwd = fs.lookup fs.cwd := by
    apply hagree <;> apply path_length_ne <;> simp only [List.length_append, hlenF, hlenM,
      List.length_singleton] <;> omega
  have e1 : fs2.lookup (fs.cwd ++ ["storage".toList]) = fs.lookup (fs.cwd ++ ["storage".toList]) := by
    apply hagree <;> apply path_length_ne <;> simp only [List.length_append, hlenF, hlenM,
      List.length_singleton] <;> omega
  have e2 : fs2.lookup (filesPath fs) = fs.lookup (filesPath fs) := by
    apply hagree <;> apply path_length_ne <;> simp only [List.length_append, hlenF, hlenM,
      List.length_singleton] <;> omega
  have e3 : fs2.lookup (plainTarget fs k2) = fs.lookup (plainTarget fs k2) := by
    unfold plainTarget
    by_cases h3 : k2 = [] ∨ k2 = [dot]
    · simp only [h3, if_true]; exact e2
    · by_cases h4 : k2 = [dot, dot]
      · simp only [h3, h4, if_true, if_false, filesPath_dropLast]; exact e1
      · simp only [h3, h4, if_false]
        apply hagree
        · intro he; exact hne (List.singleton_inj.mp (List.append_cancel_left he))
        · exact filesPath_entry_ne_sidecar fs _ _
  rw [stat_file_plain fs2 k2 h2 hn2, stat_file_plain fs k2 h2 hn2, hcwd, hF2, hT2, e0, e1, e2,
    e3]

/-- Outside the file entry and the sidecar entry of the key, `deleteFile` on a key without
`/` and without NUL that names a regular file or nothing leaves every path as it was. -/
theorem deleteFile_lookup_plain (fs : FS) (k : Str) (h : slash ∉ k) (hn : nul ∉ k)
    (hkind : stat fs (getFilePath k) = none ∨
      ∃ c m, stat fs (getFilePath k) = some (Node.regular c m))
    (p : Path) (hp1 : p ≠ filesPath fs ++ [k])
    (hp2 : p ≠ metadataPath fs ++ [k ++ ".json".toList]) :
    (deleteFile fs k).2.lookup p = fs.lookup p := by
  have side : ∀ fs1 : FS, fs1.cwd = fs.cwd →
      (removePath fs1 (getMetadataPath k)).2.lookup p = fs1.lookup p := by
    intro fs1 hc
    rcases removePath_cases fs1 (getMetadataPath k) with h0 | ⟨q, hr, _, h1⟩
    · rw [h0]
    · rw [h1]
      apply lookup_erase_ne
      rw [resolve_sidecar_plain fs1 k h hn q hr]
      unfold metadataPath; rw [hc]; exact hp2
  unfold deleteFile
  simp only
  rcases hkind with hnone | ⟨c, m, hreg⟩
  · rw [removePath_absent fs _ hnone]
    exact side fs rfl
  · obtain ⟨q, hr, _, hrem⟩ := removePath_regular fs _ c m hreg
    rw [hrem]
    simp only
    rw [side (fs.erase q) rfl]
    apply lookup_erase_ne
    rw [regular_plain_target fs k c m h hn hreg] at hr
    rw [← Option.some.inj hr]; exact hp1

theorem deleteFile_result (fs : FS) (k : Str)
    (hkind : stat fs (getFilePath k) = none ∨
      ∃ c m, stat fs (getFilePath k) = some (Node.regular c m)) :
    (deleteFile fs k).1 = storedFile fs k := by
  unfold storedFile
  rcases hkind with hnone | ⟨c, m, hreg⟩
  · rw [hnone]
    unfold deleteFile
    simp only [removePath_absent fs _ hnone]
  · rw [hreg]
    exact (deleteFile_regular fs k c m hreg).1

/-- A node that is neither a directory nor a special file is a regular file or nothing. -/
theorem regular_or_absent (o : Option Node)
    (h : o ≠ some Node.directory ∧ o ≠ some Node.special) :
    o = none ∨ ∃ c m, o = some (Node.regular c m) := by
  cases o with
  | none => exact Or.inl rfl
  | some n =>
    cases n with
    | regular c m => exact Or.inr ⟨c, m, rfl⟩
    | directory => exact absurd rfl h.1
    | special => exact absurd rfl h.2

/-- C8 (amended). Batch delete counts the existing keys when the keys are pairwise distinct,
contain neither `/` nor NUL, and none of them names a directory or a special file: the count
is the number of keys that name a stored file before the request. -/
theorem batchDelete_counts_stored (keys : List Str) :
    ∀ (fs : FS), keys.Nodup → (∀ k ∈ keys, slash ∉ k ∧ nul ∉ k) →
      (∀ k ∈ keys, stat fs (getFilePath k) ≠ some Node.directory ∧
        stat fs (getFilePath k) ≠ some Node.special) →
      (batchDelete fs keys).1 = (keys.filter (fun k => storedFile fs k)).length := by
  induction keys with
  | nil => intro fs _ _ _; rfl
  | cons k ks ih =>
    intro fs hnd hplain hkind
    have hk := regular_or_absent _ (hkind k (List.mem_cons_self _ _))
    have hpk := hplain k (List.mem_cons_self _ _)
    have hstat : ∀ k2 ∈ ks, stat (deleteFile fs k).2 (getFilePath k2) = stat fs (getFilePath k2) := by
      intro k2 hk2
      have hne : k2 ≠ k := fun e => (List.nodup_cons.mp hnd).1 (e ▸ hk2)
      have hp2 := hplain k2 (List.mem_cons_of_mem _ hk2)
      exact lookup_agree_stat fs _ k k2 hp2.1 hp2.2 hne
        (deleteFile_cwd fs k)
        (fun p h1 h2 => deleteFile_lookup_plain fs k hpk.1 hpk.2 hk p h1 h2)
    have hih := ih (deleteFile fs k).2 (List.nodup_cons.mp hnd).2
      (fun k2 hk2 => hplain k2 (List.mem_cons_of_mem _ hk2))
      (fun k2 hk2 => by rw [hstat k2 hk2]; exact hkind k2 (List.mem_cons_of_mem _ hk2))
    have hfilter : ks.filter (fun k2 => storedFile (deleteFile fs k).2 k2)
        = ks.filter (fun k2 => storedFile fs k2) := by
      apply List.filter_congr
      intro k2 hk2
      unfold storedFile
      rw [hstat k2 hk2]
    rw [hfilter] at hih
    unfold batchDelete
    simp only
    rw [hih, deleteFile_result fs k hk]
    cases hs : storedFile fs k with
    | true => simp [List.filter_cons, hs]
    | false => simp [List.filter_cons, hs]

theorem startsWith_append (p x : Str) : startsWith p (p ++ x) = true := by
  induction p with
  | nil => rfl
  | cons c cs ih =>
    rw [List.cons_append, startsWith]
    simp only [if_true, ih]

theorem find_of_startsWith (p s : Str) (h : startsWith p s = true) : find p s = some 0 := by
  cases s with
  | nil => simp only [find, h, if_true]
  | cons c cs => simp only [find, h, if_true]

/-- The first quote after a text without quotes. -/
theorem find_dquote_after (name rest : Str) (h : dquote ∉ name) :
    find [dquote] (name ++ dquote :: rest) = some name.length := by
  induction name with
  | nil => simp only [List.nil_append, find, startsWith, if_true, List.length_nil]
  | cons c cs ih =>
    have hc : ¬ dquote = c := fun e => h (e ▸ List.mem_cons_self _ _)
    have hcs : dquote ∉ cs := fun hm => h (List.mem_cons_of_mem _ hm)
    rw [List.cons_append, find, startsWith]
    simp only [hc, if_false, ih hcs, Option.map_some', List.length_cons, Bool.false_eq_true]

/-- Parsing the original name out of a sidecar that starts with the name tag. -/
theorem applyMetadata_originalName (fs : FS) (key text name rest : Str) (info : FileInfo)
    (hread : readStream fs (getMetadataPath key) = some text)
    (hcontent : joinLines text = sidecarHead ++ (name ++ dquote :: rest))
    (hq : dquote ∉ name) :
    (applyMetadata fs key info).originalName = name := by
  have hfind : find originalNameTag (joinLines text) = some 1 := by
    rw [hcontent]
    have : sidecarHead ++ (name ++ dquote :: rest)
        = Char.ofNat 123 :: (originalNameTag ++ (name ++ dquote :: rest)) := rfl
    rw [this, find]
    have h1 : startsWith originalNameTag
        (Char.ofNat 123 :: (originalNameTag ++ (name ++ dquote :: rest))) = false := rfl
    rw [h1, find_of_startsWith _ _ (startsWith_append _ _)]
    rfl
  have hdrop : (joinLines text).drop 17 = name ++ dquote :: rest := by
    rw [hcontent]
    exact List.drop_left' rfl
  have hlen : ¬ (joinLines text).length < 17 := by
    rw [hcontent, List.length_append]
    have : sidecarHead.length = 17 := rfl
    omega
  have hend : findFrom [dquote] (joinLines text) (1 + 16) = some (name.length + 17) := by
    unfold findFrom
    simp only [hlen, if_false, hdrop, find_dquote_after name rest hq, Option.map_some']
  have hsub : substr (joinLines text) (1 + 16) (name.length + 17 - (1 + 16)) = name := by
    unfold substr
    simp only [hdrop, Nat.add_sub_cancel]
    exact List.take_left' rfl
  unfold applyMetadata
  rw [hread]
  simp only [hfind, hend, hsub]
  split
  · rfl
  · split <;> rfl

theorem metadataText_shape (name ct : Str) (size : Nat) (nowSec : Int) :
    metadataText name ct size nowSec
      = sidecarHead ++ (name ++ dquote :: sidecarTail ct size nowSec) := by
  unfold metadataText sidecarTail sidecarHead
  have : "\",\"contentType\":\"".toList = dquote :: ",\"contentType\":\"".toList := rfl
  rw [this]
  simp only [List.append_assoc, List.cons_append]

theorem joinLines_metadataText (name ct : Str) (size : Nat) (nowSec : Int)
    (hn : newline ∉ name) :
    joinLines (metadataText name ct size nowSec)
      = sidecarHead ++ (name ++ dquote :: joinLines (sidecarTail ct size nowSec)) := by
  rw [metadataText_shape]
  unfold joinLines
  rw [List.filter_append, List.filter_append]
  have h1 : sidecarHead.filter (fun c => !(c = newline)) = sidecarHead := by decide
  have h2 : name.filter (fun c => !(c = newline)) = name := by
    apply List.filter_eq_self.mpr
    intro c hc
    have : ¬ c = newline := fun e => hn (e ▸ hc)
    simp only [this, decide_False, Bool.not_false]
  have h3 : ¬ dquote = newline := by decide
  rw [h1, h2, List.filter_cons_of_pos (by simp only [h3, decide_False, Bool.not_false])]

/-- State after a `saveMetadata` that succeeded and wrote its text in full, for a key whose
file is a regular file: the file is still a regular file and the sidecar reads back the text
written. -/
theorem saveMetadata_written (fs : FS) (env : WriteEnv) (nowSec : Int)
    (key name ct : Str) (size : Nat)
    (hfile : ∃ c m, stat fs (getFilePath key) = some (Node.regular c m))
    (hfull : (metadataText name ct size nowSec).length ≤ env.capacity)
    (hsave : (saveMetadata fs env nowSec key name ct size).1 = true) :
    (∃ c1 m1, stat (saveMetadata fs env nowSec key name ct size).2 (getFilePath key)
        = some (Node.regular c1 m1)) ∧
      readStream (saveMetadata fs env nowSec key name ct size).2 (getMetadataPath key)
        = some (metadataText name ct size nowSec) := by
  unfold saveMetadata at hsave ⊢
  cases hw : writeStream fs env (getMetadataPath key) (metadataText name ct size nowSec) with
  | none => rw [hw] at hsave; exact absurd hsave (by simp)
  | some r =>
    obtain ⟨good, fs1⟩ := r
    simp only
    obtain ⟨q, hr, hnd, hne, hfs, _⟩ := writeStream_some fs fs1 env _ _ good hw
    rw [List.take_of_length_le hfull] at hfs
    obtain ⟨c, m, hst⟩ := hfile
    constructor
    · unfold stat at hst ⊢
      cases hrf : resolve fs (getFilePath key) with
      | none => rw [hrf] at hst; exact absurd hst (by simp)
      | some qf =>
        rw [hrf] at hst
        simp only at hst
        have hrf1 : resolve fs1 (getFilePath key) = some qf := by
          unfold resolve at hrf ⊢
          rw [hfs, cwd_put]
          exact walk_mono fs _ (put_keeps_dirs fs q _ hne hnd) _ _ _ hrf
        rw [hrf1]
        simp only
        rw [hfs, lookup_put fs q qf _ hne]
        by_cases hqq : qf = q
        · simp only [hqq, if_true]; exact ⟨_, _, rfl⟩
        · simp only [hqq, if_false]; exact ⟨c, m, hst⟩
    · unfold readStream
      rw [hfs, resolve_after_put fs q _ _ hne hnd hr]

/-- C3 (amended). Metadata original-name round trip for names without a double quote and
without a line feed: when the file of the key is a regular file, `saveMetadata` succeeds and
its text is written in full, `getFileInfo` succeeds and returns the original name that was
saved. -/
theorem saveMetadata_originalName_roundtrip (fs : FS) (env : WriteEnv) (nowSec : Int)
    (key name ct : Str) (size : Nat)
    (hfile : ∃ c m, stat fs (getFilePath key) = some (Node.regular c m))
    (hq : dquote ∉ name) (hn : newline ∉ name)
    (hfull : (metadataText name ct size nowSec).length ≤ env.capacity)
    (hsave : (saveMetadata fs env nowSec key name ct size).1 = true) :
    ∃ info, getFileInfo (saveMetadata fs env nowSec key name ct size).2 key = some info ∧
      info.originalName = name := by
  obtain ⟨⟨c1, m1, hst1⟩, hread⟩ :=
    saveMetadata_written fs env nowSec key name ct size hfile hfull hsave
  unfold getFileInfo
  unfold getFilePath at hst1
  rw [hst1]
  exact ⟨_, rfl, applyMetadata_originalName _ key _ name _ _ hread
    (joinLines_metadataText name ct size nowSec hn) hq⟩

theorem lookupEntry_mem (p : Path) (n : Node) (es : List (Path × Node))
    (h : lookupEntry p es = some n) : (p, n) ∈ es := by
  induction es with
  | nil => exact absurd h (by simp [lookupEntry])
  | cons e es ih =>
    unfold lookupEntry at h
    split at h
    · rename_i he
      have : e = (p, n) := by
        cases e; simp only at he h; simp only [Option.some.injEq] at h; rw [he, h]
      rw [this]; exact List.mem_cons_self _ _
    · exact List.mem_cons_of_mem _ (ih h)

theorem lookup_mem (fs : FS) (p : Path) (n : Node) (hp : p ≠ [])
    (h : fs.lookup p = some n) : (p, n) ∈ fs.entries := by
  unfold FS.lookup at h
  simp only [hp, if_false] at h
  exact lookupEntry_mem p n _ h

/-- In a well-formed table every entry has a valid last name and a directory as parent. -/
theorem wf_entry (fs : FS) (hwf : fs.wf = true) (p : Path) (n : Node)
    (h : (p, n) ∈ fs.entries) :
    ∃ name, p = p.dropLast ++ [name] ∧ validName name = true ∧
      fs.lookup p.dropLast = some Node.directory := by
  unfold FS.wf at hwf
  rw [Bool.and_eq_true] at hwf
  have h1 := List.all_eq_true.mp hwf.2 (p, n) h
  simp only at h1
  cases hl : p.getLast? with
  | none => rw [hl] at h1; exact absurd h1 (by simp)
  | some name =>
    rw [hl] at h1
    simp only [Bool.and_eq_true, decide_eq_true_eq] at h1
    exact ⟨name, (List.dropLast_append_getLast? name hl).symm, h1.1, h1.2⟩

theorem wf_nodup (fs : FS) (hwf : fs.wf = true) : (fs.entries.map Prod.fst).Nodup := by
  unfold FS.wf at hwf
  rw [Bool.and_eq_true] at hwf
  exact of_decide_eq_true hwf.1

theorem validName_plain (name : Str) (h : validName name = true) : slash ∉ name := by
  unfold validName at h
  rw [Bool.and_eq_true, Bool.and_eq_true] at h
  simpa using h.1.2

theorem validName_nonul (name : Str) (h : validName name = true) : nul ∉ name := by
  unfold validName at h
  rw [Bool.and_eq_true, Bool.and_eq_true] at h
  simpa using h.2

theorem validName_proper (name : Str) (h : validName name = true) : properName name = true := by
  unfold validName at h
  rw [Bool.and_eq_true, Bool.and_eq_true] at h
  exact h.1.1

theorem mem_childNames (fs : FS) (d : Path) (name : Str) :
    name ∈ fs.childNames d ↔ ∃ n, (d ++ [name], n) ∈ fs.entries := by
  unfold FS.childNames
  rw [List.mem_filterMap]
  constructor
  · rintro ⟨e, he, hf⟩
    cases hl : e.1.getLast? with
    | none => rw [hl] at hf; exact absurd hf (by simp)
    | some nm =>
      rw [hl] at hf
      simp only at hf
      split at hf
      · rename_i hd
        simp only [Option.some.injEq] at hf
        have := List.dropLast_append_getLast? nm hl
        rw [hd, hf] at this
        refine ⟨e.2, ?_⟩
        rw [this]; exact he
      · exact absurd hf (by simp)
  · rintro ⟨n, hn⟩
    refine ⟨(d ++ [name], n), hn, ?_⟩
    simp only [List.getLast?_append, List.getLast?_singleton, Option.or_some,
      List.dropLast_concat, if_true]

theorem childNames_nodup (fs : FS) (d : Path) (h : (fs.entries.map Prod.fst).Nodup) :
    (fs.childNames d).Nodup := by
  unfold FS.childNames
  generalize fs.entries = es at h
  induction es with
  | nil => exact List.nodup_nil
  | cons e es ih =>
    rw [List.map_cons, List.nodup_cons] at h
    rw [List.filterMap_cons]
    split
    · exact ih h.2
    · rename_i name hname
      rw [List.nodup_cons]
      refine ⟨?_, ih h.2⟩
      intro hmem
      obtain ⟨e2, he2, hf2⟩ := List.mem_filterMap.mp hmem
      apply h.1
      have key : ∀ x : Path × Node,
          (match x.1.getLast? with
            | some nm => if x.1.dropLast = d then some nm else none
            | none => none) = some name → x.1 = d ++ [name] := by
        intro x hx
        cases hl : x.1.getLast? with
        | none => rw [hl] at hx; exact absurd hx (by simp)
        | some nm =>
          rw [hl] at hx
          simp only at hx
          split at hx
          · rename_i hd
            simp only [Option.some.injEq] at hx
            have := List.dropLast_append_getLast? nm hl
            rw [hd, hx] at this
            exact this.symm
          · exact absurd hx (by simp)
      rw [key e hname, ← key e2 hf2]
      exact List.mem_map_of_mem _ he2

/-- Closed form of opening the files directory. -/
theorem readdir_filesDir (fs : FS) :
    readdir fs filesDir_ =
      if fs.lookup fs.cwd = some Node.directory
          ∧ fs.lookup (fs.cwd ++ ["storage".toList]) = some Node.directory
          ∧ fs.lookup (filesPath fs) = some Node.directory
      then some ([dot] :: [dot, dot] :: fs.childNames (filesPath fs)) else none := by
  unfold readdir resolve
  have h2 : splitPath (c_str filesDir_) = ["storage".toList, "files".toList] := by decide
  rw [h2, walk_name fs _ _ _ (by decide), walk_name fs _ _ _ (by decide)]
  have hF : fs.cwd ++ ["storage".toList] ++ ["files".toList] = filesPath fs := by
    unfold filesPath; simp
  rw [hF]
  by_cases h0 : fs.lookup fs.cwd = some Node.directory
  · by_cases h1 : fs.lookup (fs.cwd ++ ["storage".toList]) = some Node.directory
    · by_cases h3 : fs.lookup (filesPath fs) = some Node.directory
      · simp only [h0, h1, h3, if_true, and_self, walk]
      · simp only [h0, h1, h3, if_true, if_false, and_false, walk]
    · simp only [h0, h1, if_true, if_false, and_false, false_and]
  · simp only [h0, if_false, false_and]

/-- In a well-formed table a node directly inside the files directory can be reached: the
working directory, the storage directory and the files directory are directories. -/
theorem wf_files_reachable (fs : FS) (hwf : fs.wf = true) (name : Str) (n : Node)
    (h : fs.lookup (filesPath fs ++ [name]) = some n) :
    fs.lookup fs.cwd = some Node.directory
      ∧ fs.lookup (fs.cwd ++ ["storage".toList]) = some Node.directory
      ∧ fs.lookup (filesPath fs) = some Node.directory ∧ validName name = true := by
  have hm := lookup_mem fs _ n (by simp) h
  obtain ⟨nm, hnm, hvalid, hdir⟩ := wf_entry fs hwf _ n hm
  rw [List.dropLast_concat] at hnm hdir
  have hname : nm = name := (List.singleton_inj.mp (List.append_cancel_left hnm)).symm
  have hF : filesPath fs ≠ [] := by unfold filesPath; simp
  obtain ⟨_, _, _, hdir1⟩ := wf_entry fs hwf _ _ (lookup_mem fs _ _ hF hdir)
  rw [filesPath_dropLast] at hdir1
  obtain ⟨_, _, _, hdir0⟩ := wf_entry fs hwf _ _ (lookup_mem fs _ _ (by simp) hdir1)
  rw [List.dropLast_concat] at hdir0
  exact ⟨hdir0, hdir1, hdir, hname ▸ hvalid⟩

theorem head_dot : ([dot] : Str).head? = some dot ∧ ([dot, dot] : Str).head? = some dot :=
  ⟨rfl, rfl⟩

/-- The keys produced by the loop of `listFiles` are the names it keeps, in order. -/
theorem keys_filterMap_listEntry (fs : FS) (names : List Str) :
    (names.filterMap (listEntry fs)).map (fun e => e.key)
      = names.filter (fun n => (listEntry fs n).isSome) := by
  induction names with
  | nil => rfl
  | cons n ns ih =>
    rw [List.filterMap_cons]
    cases hl : listEntry fs n with
    | none =>
      simp only
      rw [List.filter_cons_of_neg (by simp [hl])]
      exact ih
    | some e =>
      simp only
      rw [List.filter_cons_of_pos (by simp [hl]), List.map_cons, ih,
        (listEntry_some fs n e hl).1]

/-- Entries of `listFiles` in a well-formed table: the key is a visible name and names a regular file
directly inside the files directory. -/
theorem listFiles_entry_wf (fs : FS) (hwf : fs.wf = true) (e : FileInfo)
    (he : e ∈ listFiles fs) :
    e.key.head? ≠ some dot ∧
      ∃ c m, fs.lookup (filesPath fs ++ [e.key]) = some (Node.regular c m) := by
  obtain ⟨names, name, hrd, hmem, hentry⟩ := mem_listFiles fs e he
  obtain ⟨hkey, hdot, c, m, hst⟩ := listEntry_some fs name e hentry
  rw [hkey]
  refine ⟨hdot, c, m, ?_⟩
  rw [readdir_filesDir] at hrd
  split at hrd
  · simp only [Option.some.injEq] at hrd
    rw [← hrd] at hmem
    rcases List.mem_cons.mp hmem with h1 | h1
    · rw [h1] at hdot; exact absurd head_dot.1 hdot
    · rcases List.mem_cons.mp h1 with h2 | h2
      · rw [h2] at hdot; exact absurd head_dot.2 hdot
      · obtain ⟨n, hn⟩ := (mem_childNames fs _ name).mp h2
        obtain ⟨nm, hnm, hvalid, _⟩ := wf_entry fs hwf _ n hn
        rw [List.dropLast_concat] at hnm
        have hname : nm = name := (List.singleton_inj.mp (List.append_cancel_left hnm)).symm
        rw [hname] at hvalid
        have hres := regular_plain_target fs name c m (validName_plain name hvalid)
          (validName_nonul name hvalid) hst
        have hst2 : stat fs (getFilePath name) = some (Node.regular c m) := hst
        unfold stat at hst2
        rw [hres] at hst2
        exact hst2
  · exact absurd hrd (by simp)

/-- A key that occurs among pairwise distinct keys belongs to exactly one entry. -/
theorem filter_key_length_one (l : List FileInfo) (name : Str)
    (hnd : (l.map (fun e => e.key)).Nodup) (hmem : name ∈ l.map (fun e => e.key)) :
    (l.filter (fun e => e.key = name)).length = 1 := by
  induction l with
  | nil => exact absurd hmem (by simp)
  | cons x xs ih =>
    rw [List.map_cons, List.nodup_cons] at hnd
    by_cases hx : x.key = name
    · rw [List.filter_cons_of_pos (by simp [hx])]
      have : xs.filter (fun e => decide (e.key = name)) = [] := by
        apply List.filter_eq_nil_iff.mpr
        intro e he
        have : e.key ≠ name := by
          intro h2
          apply hnd.1
          rw [hx, ← h2]
          exact List.mem_map_of_mem _ he
        simp [this]
      rw [this]; rfl
    · rw [List.filter_cons_of_neg (by simp [hx])]
      apply ih hnd.2
      rw [List.map_cons] at hmem
      rcases List.mem_cons.mp hmem with h1 | h1
      · exact absurd h1.symm hx
      · exact h1

/-- C10. The function `listFiles` returns only visible regular files: in every well-formed file system,
no entry has a key that starts with a dot, every key names a regular file directly
inside the files directory, and every regular file directly inside the files directory whose
name does not start with a dot is the key of exactly one entry. -/
theorem listFiles_visible_regular_files (fs : FS) (hwf : fs.wf = true) :
    (∀ e ∈ listFiles fs, e.key.head? ≠ some dot ∧
      ∃ c m, fs.lookup (filesPath fs ++ [e.key]) = some (Node.regular c m)) ∧
    (∀ name c m, fs.lookup (filesPath fs ++ [name]) = some (Node.regular c m) →
      name.head? ≠ some dot →
      ((listFiles fs).filter (fun e => e.key = name)).length = 1) := by
  refine ⟨fun e he => listFiles_entry_wf fs hwf e he, ?_⟩
  intro name c m hlk hdot
  obtain ⟨h0, h1, h2, hvalid⟩ := wf_files_reachable fs hwf name _ hlk
  have hrd : readdir fs filesDir_
      = some ([dot] :: [dot, dot] :: fs.childNames (filesPath fs)) := by
    rw [readdir_filesDir]; simp only [h0, h1, h2, and_self, if_true]
  -- the name is kept by the loop
  have hstat : stat fs (filesDir_ ++ "/".toList ++ name) = some (Node.regular c m) := by
    have := stat_file_plain fs name (validName_plain name hvalid)
      (validName_nonul name hvalid)
    unfold getFilePath at this
    rw [this]
    simp only [h0, h1, h2, and_self, if_true]
    unfold plainTarget
    have hp := validName_proper name hvalid
    have h3 : ¬ (name = [] ∨ name = [dot]) := by
      intro h; rcases h with h | h <;> (rw [h] at hp; revert hp; decide)
    have h4 : ¬ name = [dot, dot] := by
      intro h; rw [h] at hp; revert hp; decide
    simp only [h3, h4, if_false]; exact hlk
  have hsome : (listEntry fs name).isSome = true := by
    unfold listEntry
    simp only [hdot, if_false, hstat, Option.isSome_some]
  have hperm : ((listFiles fs).map (fun e => e.key)).Perm
      ((fs.childNames (filesPath fs)).filter (fun n => (listEntry fs n).isSome)) := by
    unfold listFiles
    rw [hrd]
    simp only
    refine ((stdSort_perm newerFirst _).map _).trans ?_
    rw [keys_filterMap_listEntry]
    have hd1 : (listEntry fs [dot]).isSome = false := by
      unfold listEntry; simp only [head_dot.1, if_true, Option.isSome_none]
    have hd2 : (listEntry fs [dot, dot]).isSome = false := by
      unfold listEntry; simp only [head_dot.2, if_true, Option.isSome_none]
    rw [List.filter_cons_of_neg (by simp [hd1]), List.filter_cons_of_neg (by simp [hd2])]
  apply filter_key_length_one
  · exact hperm.nodup_iff.mpr ((childNames_nodup fs _ (wf_nodup fs hwf)).filter _)
  · apply hperm.mem_iff.mpr
    rw [List.mem_filter]
    exact ⟨(mem_childNames fs _ name).mpr ⟨_, lookup_mem fs _ _ (by simp) hlk⟩, hsome⟩

theorem startsWith_exists (pat : Str) : ∀ s : Str, startsWith pat s = true →
    ∃ rest, s = pat ++ rest := by
  induction pat with
  | nil => intro s _; exact ⟨s, rfl⟩
  | cons c cs ih =>
    intro s h
    cases s with
    | nil => exact absurd h (by simp [startsWith])
    | cons d ds =>
      rw [startsWith] at h
      split at h
      · rename_i hcd
        obtain ⟨rest, hrest⟩ := ih ds h
        exact ⟨rest, by rw [hcd, hrest]; rfl⟩
      · exact absurd h (by simp)

/-- What `find` returns is the offset of an occurrence. -/
theorem find_some_drop (pat : Str) : ∀ (s : Str) (p : Nat), find pat s = some p →
    ∃ rest, s.drop p = pat ++ rest := by
  intro s
  induction s with
  | nil =>
    intro p h
    rw [find] at h
    split at h
    · rename_i hs
      simp only [Option.some.injEq] at h
      rw [← h]
      exact startsWith_exists pat [] hs
    · exact absurd h (by simp)
  | cons c cs ih =>
    intro p h
    rw [find] at h
    split at h
    · rename_i hs
      simp only [Option.some.injEq] at h
      rw [← h]
      exact startsWith_exists pat (c :: cs) hs
    · cases hf : find pat cs with
      | none => rw [hf] at h; exact absurd h (by simp)
      | some i =>
        rw [hf] at h
        simp only [Option.map_some', Option.some.injEq] at h
        rw [← h]
        exact ih i hf

/-- The content type read from a sidecar is empty whenever the type tag is found: the slice
starts 14 characters into the 15-character tag, on the quote that ends the tag. -/
theorem applyMetadata_contentType_empty (fs : FS) (key text : Str) (info : FileInfo) (p : Nat)
    (hread : readStream fs (getMetadataPath key) = some text)
    (hfind : find contentTypeTag (joinLines text) = some p) :
    (applyMetadata fs key info).contentType = [] := by
  obtain ⟨rest, hrest⟩ := find_some_drop _ _ _ hfind
  have hdrop : (joinLines text).drop (p + 14) = dquote :: rest := by
    rw [← List.drop_drop, hrest]; rfl
  have hlen : ¬ (joinLines text).length < p + 14 := by
    intro hlt
    rw [List.drop_eq_nil_of_le (Nat.le_of_lt hlt)] at hdrop
    exact absurd hdrop (by simp)
  have hend : findFrom [dquote] (joinLines text) (p + 14) = some (p + 14) := by
    unfold findFrom
    simp only [hlen, if_false, hdrop]
    rw [find_of_startsWith [dquote] (dquote :: rest) (by simp [startsWith])]
    simp
  unfold applyMetadata
  rw [hread]
  simp only [hfind, hend, Nat.sub_self, substr, List.take_zero]

theorem find_append_isSome (pat y : Str) :
    ∀ x : Str, (find pat (x ++ (pat ++ y))).isSome = true := by
  intro x
  induction x with
  | nil =>
    rw [List.nil_append, find_of_startsWith _ _ (startsWith_append pat y)]; rfl
  | cons c cs ih =>
    rw [List.cons_append, find]
    split
    · rfl
    · cases hf : find pat (cs ++ (pat ++ y)) with
      | none => rw [hf] at ih; exact absurd ih (by simp)
      | some i => rfl

/-- The type tag always occurs in the text written by `saveMetadata`. -/
theorem find_contentTypeTag_metadataText (name ct : Str) (size : Nat) (nowSec : Int) :
    ∃ p, find contentTypeTag (joinLines (metadataText name ct size nowSec)) = some p := by
  have hshape : metadataText name ct size nowSec
      = (sidecarHead ++ name ++ [dquote, Char.ofNat 44]) ++ (contentTypeTag ++
          (ct ++ "\",\"size\":".toList ++ natToString size
            ++ ",\"uploadedAt\":\"".toList ++ to_string nowSec ++ "\"\x7d".toList)) := by
    unfold metadataText sidecarHead
    have : "\",\"contentType\":\"".toList = [dquote, Char.ofNat 44] ++ contentTypeTag := rfl
    rw [this]
    simp only [List.append_assoc, List.cons_append, List.nil_append]
  have htag : joinLines contentTypeTag = contentTypeTag := by decide
  have hjoin : ∀ x y : Str, joinLines (x ++ (contentTypeTag ++ y))
      = joinLines x ++ (contentTypeTag ++ joinLines y) := by
    intro x y
    have h1 : ∀ u v : Str, joinLines (u ++ v) = joinLines u ++ joinLines v := by
      intro u v; unfold joinLines; exact List.filter_append _ _
    rw [h1, h1, htag]
  rw [hshape, hjoin]
  have h := find_append_isSome contentTypeTag
    (joinLines (ct ++ "\",\"size\":".toList ++ natToString size
      ++ ",\"uploadedAt\":\"".toList ++ to_string nowSec ++ "\"\x7d".toList))
    (joinLines (sidecarHead ++ name ++ [dquote, Char.ofNat 44]))
  exact Option.isSome_iff_exists.mp h

/-- The content type is lost on the way through the sidecar: for every name and content type,
when the file of the key is a regular file, `saveMetadata` succeeds and its text is written
in full, `getFileInfo` succeeds and returns the empty content type. -/
theorem getFileInfo_contentType_after_saveMetadata (fs : FS) (env : WriteEnv) (nowSec : Int)
    (key name ct : Str) (size : Nat)
    (hfile : ∃ c m, stat fs (getFilePath key) = some (Node.regular c m))
    (hfull : (metadataText name ct size nowSec).length ≤ env.capacity)
    (hsave : (saveMetadata fs env nowSec key name ct size).1 = true) :
    ∃ info, getFileInfo (saveMetadata fs env nowSec key name ct size).2 key = some info ∧
      info.contentType = [] := by
  obtain ⟨⟨c1, m1, hst1⟩, hread⟩ :=
    saveMetadata_written fs env nowSec key name ct size hfile hfull hsave
  obtain ⟨p, hp⟩ := find_contentTypeTag_metadataText name ct size nowSec
  unfold getFileInfo
  unfold getFilePath at hst1
  rw [hst1]
  exact ⟨_, rfl, applyMetadata_contentType_empty _ key _ _ p hread hp⟩

/-- The sidecar block overwrites the original name and the content type with values that
depend on the sidecar alone, or leaves them as they are. -/
theorem applyMetadata_form (fs : FS) (key : Str) :
    ∃ (oname otype : Option Str), ∀ info : FileInfo,
      applyMetadata fs key info =
        { info with originalName := oname.getD info.originalName,
                    contentType := otype.getD info.contentType } := by
  unfold applyMetadata
  cases readStream fs (getMetadataPath key) with
  | none => exact ⟨none, none, fun info => rfl⟩
  | some text =>
    simp only
    cases find originalNameTag (joinLines text) with
    | none =>
      cases find contentTypeTag (joinLines text) with
      | none => exact ⟨none, none, fun info => rfl⟩
      | some p2 =>
        simp only
        cases findFrom [dquote] (joinLines text) (p2 + 14) with
        | none => exact ⟨none, none, fun info => rfl⟩
        | some e2 => exact ⟨none, some _, fun info => rfl⟩
    | some p1 =>
      simp only
      cases findFrom [dquote] (joinLines text) (p1 + 16) with
      | none =>
        cases find contentTypeTag (joinLines text) with
        | none => exact ⟨none, none, fun info => rfl⟩
        | some p2 =>
          simp only
          cases findFrom [dquote] (joinLines text) (p2 + 14) with
          | none => exact ⟨none, none, fun info => rfl⟩
          | some e2 => exact ⟨none, some _, fun info => rfl⟩
      | some e1 =>
        cases find contentTypeTag (joinLines text) with
        | none => exact ⟨some _, none, fun info => rfl⟩
        | some p2 =>
          simp only
          cases findFrom [dquote] (joinLines text) (p2 + 14) with
          | none => exact ⟨some _, none, fun info => rfl⟩
          | some e2 => exact ⟨some _, some _, fun info => rfl⟩

/-- What `getFileInfo` and `listFiles` share: for every entry of `listFiles`, `getFileInfo` on
its key succeeds with the same key, size, modification time and original name, and the
content type of the entry is that of `getFileInfo` with the empty text replaced by the
default. -/
theorem getFileInfo_of_listed (fs : FS) (e : FileInfo) (he : e ∈ listFiles fs) :
    ∃ info, getFileInfo fs e.key = some info ∧ info.key = e.key ∧ info.size = e.size ∧
      info.lastModified = e.lastModified ∧ info.originalName = e.originalName ∧
      e.contentType = (if info.contentType = [] then octetStream else info.contentType) := by
  obtain ⟨_, name, _, _, hentry⟩ := mem_listFiles fs e he
  have hkey := (listEntry_some fs name e hentry).1
  rw [hkey]
  unfold listEntry at hentry
  split at hentry
  · exact absurd hentry (by simp)
  · split at hentry
    · rename_i c m hst
      obtain ⟨oname, otype, hform⟩ := applyMetadata_form fs name
      unfold getFileInfo
      rw [hst]
      refine ⟨_, rfl, ?_⟩
      simp only [Option.some.injEq] at hentry
      rw [← hentry, hform, hform]
      cases otype with
      | none => exact ⟨rfl, rfl, rfl, rfl, rfl⟩
      | some v =>
        by_cases hv : v = []
        · subst hv; exact ⟨rfl, rfl, rfl, rfl, rfl⟩
        · refine ⟨?_, ?_, ?_, ?_, ?_⟩ <;> simp only [Option.getD_some, hv, if_false]
    · exact absurd hentry (by simp)

/-- C1. The upload scenario of the specification run on the code: `saveFile` returns the key
`1700000000000-report.pdf`, `saveMetadata` succeeds, and `getFileInfo` on the key then
returns the empty content type, not `application/pdf`. -/
theorem upload_contentType_not_returned :
    uploadedFile.1 = "1700000000000-report.pdf".toList ∧ uploadedStore.1 = true ∧
    (getFileInfo uploadedStore.2 uploadedFile.1).map (fun i => i.contentType) = some [] ∧
    (getFileInfo uploadedStore.2 uploadedFile.1).map (fun i => i.contentType)
      ≠ some "application/pdf".toList := by
  decide

/-- C2, at the upload scenario: the key is not empty and `readFile` returns the twelve bytes
saved. -/
theorem saveFile_readFile_roundtrip_witness :
    uploadedFile.1 ≠ [] ∧
    readFile uploadedFile.2 uploadedFile.1 = some "%PDF-1.4 tst".toList :=
  ⟨by decide,
   saveFile_readFile_roundtrip emptyStore goodEnv 1700000000000 "report.pdf".toList
     "%PDF-1.4 tst".toList "application/pdf".toList 12 (by decide)⟩

/-- C3 fails as stated: for the existing key `a.txt` and the original name `a"b`,
`saveMetadata` succeeds with its text written in full, and `getFileInfo` then returns the
original name `a`. -/
theorem originalName_quote_counterexample :
    stat mixedStore (getFilePath "a.txt".toList)
      = some (Node.regular "hello".toList 1700000001) ∧
    (metadataText "a\"b".toList "text/plain".toList 5 1700000000).length ≤ goodEnv.capacity ∧
    (saveMetadata mixedStore goodEnv 1700000000 "a.txt".toList "a\"b".toList
      "text/plain".toList 5).1 = true ∧
    (getFileInfo (saveMetadata mixedStore goodEnv 1700000000 "a.txt".toList "a\"b".toList
      "text/plain".toList 5).2 "a.txt".toList).map (fun i => i.originalName)
      = some "a".toList ∧
    "a".toList ≠ "a\"b".toList := by
  decide

/-- C3 (amended), at the upload scenario: the original name `report.pdf` comes back. -/
theorem saveMetadata_originalName_roundtrip_witness :
    ∃ info, getFileInfo uploadedStore.2 uploadedFile.1 = some info ∧
      info.originalName = "report.pdf".toList :=
  saveMetadata_originalName_roundtrip uploadedFile.2 goodEnv 1700000000 uploadedFile.1
    "report.pdf".toList "application/pdf".toList 12
    ⟨"%PDF-1.4 tst".toList, 1700000000, by decide⟩ (by decide) (by decide) (by decide)
    (by decide)

/-- C4. The function `listFiles` run on a files directory with a file modified at second
999999999 and a file modified one second later: the earlier file is listed first, because
the text `999999999` is greater than the text `1000000000`. -/
theorem listFiles_older_listed_first :
    (listFiles rolloverStore).map (fun e => (e.key, readInt e.lastModified))
      = [("earlier".toList, 999999999), ("later".toList, 1000000000)] ∧
    strLt "1000000000".toList "999999999".toList = true := by
  decide

/-- C5. The upload scenario run on the code: the `listFiles` entry of the key carries the
default content type while `getFileInfo` on the same key returns the empty content type. -/
theorem listed_contentType_differs :
    (listFiles uploadedStore.2).map (fun e => (e.key, e.contentType))
      = [(uploadedFile.1, "application/octet-stream".toList)] ∧
    (getFileInfo uploadedStore.2 uploadedFile.1).map (fun i => i.contentType) = some [] := by
  decide

/-- C7 fails as stated, in two ways.  In a store whose files directory holds
`1700000000000-a.json`, no file is named by the key `../files/1700000000000-a`, `deleteFile`
on that key fails, and the files directory has lost `1700000000000-a.json`, which the
sidecar path of the key leads to.  In the empty store the empty key names the files
directory itself, not a file, and `deleteFile` on it succeeds and removes that directory. -/
theorem deleteFile_absent_counterexample :
    (stat jsonStore (getFilePath "../files/1700000000000-a".toList) = none ∧
      (deleteFile jsonStore "../files/1700000000000-a".toList).1 = false ∧
      filesDirContents (deleteFile jsonStore "../files/1700000000000-a".toList).2
        ≠ filesDirContents jsonStore ∧
      getFileInfo jsonStore "1700000000000-a.json".toList ≠ none ∧
      getFileInfo (deleteFile jsonStore "../files/1700000000000-a".toList).2
        "1700000000000-a.json".toList = none) ∧
    (stat emptyStore (getFilePath []) = some Node.directory ∧
      (deleteFile emptyStore []).1 = true ∧
      filesDirContents (deleteFile emptyStore []).2 ≠ filesDirContents emptyStore) := by
  decide

/-- C7 (amended), at the key `ghost` of the mixed store, which names nothing. -/
theorem deleteFile_absent_fails_witness :
    stat mixedStore (getFilePath "ghost".toList) = none ∧
    namesNothing mixedStore (getFilePath "ghost".toList) = true ∧
    (deleteFile mixedStore "ghost".toList).1 = false ∧
    filesDirContents (deleteFile mixedStore "ghost".toList).2 = filesDirContents mixedStore :=
  ⟨by decide, by decide,
   (deleteFile_absent_fails mixedStore "ghost".toList (by decide)).1,
   (deleteFile_absent_fails mixedStore "ghost".toList (by decide)).2
     (sidecar_outside_of_plain mixedStore "ghost".toList (by decide))⟩

/-- C8 fails as stated, in four ways, each with a count that differs from the number of keys
that name a stored file before the request.  A key listed twice: two of two exist, count 1.
Two keys that differ after a NUL: both name `a.txt`, count 1.  Two keys that reach the same
file, one through `./`: count 1.  A key that names an empty directory: no stored file,
count 1. -/
theorem batchDelete_count_counterexample :
    ((["a.txt".toList, "a.txt".toList].filter (fun k => storedFile mixedStore k)).length = 2 ∧
      (batchDelete mixedStore ["a.txt".toList, "a.txt".toList]).1 = 1) ∧
    (([nulKeyX, nulKeyY].filter (fun k => storedFile mixedStore k)).length = 2 ∧
      nulKeyX ≠ nulKeyY ∧ (batchDelete mixedStore [nulKeyX, nulKeyY]).1 = 1) ∧
    ((["a.txt".toList, "./a.txt".toList].filter (fun k => storedFile mixedStore k)).length = 2 ∧
      (batchDelete mixedStore ["a.txt".toList, "./a.txt".toList]).1 = 1) ∧
    ((["sub".toList].filter (fun k => storedFile mixedStore k)).length = 0 ∧
      (batchDelete mixedStore ["sub".toList]).1 = 1) := by
  decide

/-- C8 (amended), at three distinct keys of which two exist. -/
theorem batchDelete_counts_stored_witness :
    (batchDelete mixedStore ["a.txt".toList, "ghost".toList, "b.bin".toList]).1 = 2 :=
  batchDelete_counts_stored ["a.txt".toList, "ghost".toList, "b.bin".toList] mixedStore
    (by decide) (by decide) (by decide)

/-- C9, at the file `a.txt` of the mixed store, which has no sidecar. -/
theorem getFileInfo_defaults_witness :
    getFileInfo mixedStore "a.txt".toList = some
      { key := "a.txt".toList, size := 5, lastModified := "1700000001".toList,
        contentType := "application/octet-stream".toList, originalName := "a.txt".toList } :=
  getFileInfo_defaults mixedStore "a.txt".toList "hello".toList 1700000001
    (by decide) (by decide)

/-- C10, at the mixed store: a hidden file, a subdirectory and a socket are left out, the two
visible regular files are listed once each. -/
theorem listFiles_visible_regular_files_witness :
    mixedStore.wf = true ∧
    (listFiles mixedStore).map (fun e => e.key) = ["b.bin".toList, "a.txt".toList] ∧
    ((∀ e ∈ listFiles mixedStore, e.key.head? ≠ some dot ∧
      ∃ c m, mixedStore.lookup (filesPath mixedStore ++ [e.key]) = some (Node.regular c m)) ∧
    (∀ name c m, mixedStore.lookup (filesPath mixedStore ++ [name]) = some (Node.regular c m) →
      name.head? ≠ some dot →
      ((listFiles mixedStore).filter (fun e => e.key = name)).length = 1)) :=
  ⟨by decide, by decide, listFiles_visible_regular_files mixedStore (by decide)⟩

theorem strLt_asymm : ∀ a b : Str, strLt a b = true → strLt b a = false := by
  intro a
  induction a with
  | nil => intro b _; cases b <;> rfl
  | cons x xs ih =>
    intro b h
    cases b with
    | nil => exact absurd h (by simp [strLt])
    | cons y ys =>
      rw [strLt] at h ⊢
      by_cases h1 : x.toNat < y.toNat
      · have h2 : ¬ y.toNat < x.toNat := by omega
        simp only [h1, h2, if_true, if_false]
      · by_cases h2 : y.toNat < x.toNat
        · simp only [h1, h2, if_true, if_false] at h
          exact absurd h (by simp)
        · simp only [h1, h2, if_false] at h ⊢
          exact ih ys h

/-- The order `a ≥ b` of strings, `strLt a b = false`, is transitive. -/
theorem strLt_false_trans : ∀ a b c : Str, strLt a b = false → strLt b c = false →
    strLt a c = false := by
  intro a
  induction a with
  | nil =>
    intro b c hab hbc
    cases b with
    | nil => exact hbc
    | cons y ys => exact absurd hab (by simp [strLt])
  | cons x xs ih =>
    intro b c hab hbc
    cases c with
    | nil => rfl
    | cons z zs =>
      cases b with
      | nil => exact absurd hbc (by simp [strLt])
      | cons y ys =>
        rw [strLt] at hab hbc ⊢
        by_cases h1 : x.toNat < y.toNat
        · simp only [h1, if_true] at hab; exact absurd hab (by simp)
        · by_cases h2 : y.toNat < z.toNat
          · simp only [h2, if_true] at hbc; exact absurd hbc (by simp)
          · by_cases h3 : y.toNat < x.toNat
            · have h4 : ¬ x.toNat < z.toNat := by omega
              have h5 : z.toNat < x.toNat := by omega
              simp only [h4, h5, if_true, if_false]
            · by_cases h6 : z.toNat < y.toNat
              · have h4 : ¬ x.toNat < z.toNat := by omega
                have h5 : z.toNat < x.toNat := by omega
                simp only [h4, h5, if_true, if_false]
              · have h4 : ¬ x.toNat < z.toNat := by omega
                have h5 : ¬ z.toNat < x.toNat := by omega
                simp only [h1, h3, if_false] at hab
                simp only [h2, h6, if_false] at hbc
                simp only [h4, h5, if_false]
                exact ih ys zs hab hbc

theorem insertBy_pairwise {α : Type} (comp : α → α → Bool)
    (hasymm : ∀ a b, comp a b = true → comp b a = false)
    (htrans : ∀ a b c, comp b a = false → comp c b = false → comp c a = false)
    (x : α) : ∀ l : List α, l.Pairwise (fun a b => comp b a = false) →
      (insertBy comp x l).Pairwise (fun a b => comp b a = false) := by
  intro l
  induction l with
  | nil => intro _; exact List.pairwise_singleton _ _
  | cons y ys ih =>
    intro h
    rw [List.pairwise_cons] at h
    unfold insertBy
    by_cases hc : comp y x = true
    · simp only [hc, if_true]
      rw [List.pairwise_cons]
      refine ⟨?_, ih h.2⟩
      intro z hz
      rcases List.mem_cons.mp ((insertBy_perm comp x ys).mem_iff.mp hz) with hzx | hzy
      · rw [hzx]; exact hasymm y x hc
      · exact h.1 z hzy
    · have hc2 : comp y x = false := by
        cases hb : comp y x
        · rfl
        · exact absurd hb hc
      simp only [hc2, Bool.false_eq_true, if_false]
      rw [List.pairwise_cons]
      refine ⟨?_, List.pairwise_cons.mpr h⟩
      intro z hz
      rcases List.mem_cons.mp hz with hzy | hzy
      · rw [hzy]; exact hc2
      · exact htrans x y z hc2 (h.1 z hzy)

/-- The result of `stdSort` is ordered: `comp` puts no element before an earlier one. -/
theorem stdSort_pairwise {α : Type} (comp : α → α → Bool)
    (hasymm : ∀ a b, comp a b = true → comp b a = false)
    (htrans : ∀ a b c, comp b a = false → comp c b = false → comp c a = false) :
    ∀ l : List α, (stdSort comp l).Pairwise (fun a b => comp b a = false) := by
  intro l
  induction l with
  | nil => exact List.Pairwise.nil
  | cons x xs ih =>
    unfold stdSort
    exact insertBy_pairwise comp hasymm htrans x _ ih

/-- What the sort of `listFiles` guarantees: the entries are in descending order of the text
of `lastModified`; no entry has a text smaller than that of a later entry. -/
theorem listFiles_sorted_by_text (fs : FS) :
    (listFiles fs).Pairwise (fun a b => strLt a.lastModified b.lastModified = false) := by
  unfold listFiles
  split
  · exact List.Pairwise.nil
  · exact stdSort_pairwise newerFirst
      (fun a b h => strLt_asymm _ _ h)
      (fun a b c h1 h2 => strLt_false_trans _ _ _ h1 h2) _

end Storage
